import Mathlib

set_option maxHeartbeats 1000000

/-
Verification of `jeux_de_dictionnaires.py`.

The program finds, among a list of words, the pair of distinct words sharing
the longest common suffix, and compares three strategies:
  * `common_suffix` / `largest_common_suffix`: pairwise brute force;
  * `last_char_map` / `largest_common_suffix2`: bucket by last character,
    then brute force inside each bucket;
  * `build_trie` / `largest_common_suffix3`: insert every reversed word in a
    trie and walk it bottom-up looking for the deepest branching node.

Embedding choices:
  * a Python string is a `List Char` (`Word`);
  * a Python trie node (a dict whose keys are single characters mapping to
    child dicts, plus possibly the reserved key "END" mapping to the int 0)
    is a `Trie`: an end-marker flag together with an ordered association
    list of children.  The association list keeps Python's dict insertion
    order; the flag plays the role of the "END" entry.  `walk` never looks
    at the position of the "END" key (it only skips int values and counts
    `len(trie)`, which `nodeSize` reproduces), so the flag is faithful.
    An untyped model `PyVal` of Python dict/int values is also given, with
    `build_trie_py` mirroring `build_trie` literally (including the TypeError
    that walking into a non-dict value would raise, modelled as `none`);
  * the backward scanning loop of `common_suffix` and the recursive `walk`
    of `largest_common_suffix3` are written with an explicit fuel argument
    so that they are structurally recursive; the fuel given at the call
    sites (`a.length` for the scan, total input length + 1 for the walk)
    strictly dominates the iteration count / recursion depth of the Python
    original, so the guard inside the body is the only real exit
    (`heightLt_build_trie` and `walkF_fuel_irrel` make this formal);
  * the partial operations (`word[-1]` on an empty string in
    `last_char_map`, walking into an int in the untyped trie) return
    `Option`, `none` standing for the raised exception.
-/

/-- A Python string, as its list of characters. -/
abbrev Word := List Char

/-- Longest common prefix of two character lists. -/
def lcp : List Char → List Char → List Char
  | a :: as, b :: bs => if a = b then a :: lcp as bs else []
  | _, _ => []

/-- Maximum of a list of naturals, `0` for the empty list. -/
def natMax (l : List Nat) : Nat := l.foldr max 0

/-- `prefB p q` decides whether `p` is a leading segment of `q`. -/
def prefB : List Char → List Char → Bool
  | [], _ => true
  | _ :: _, [] => false
  | a :: p, b :: q => a = b && prefB p q

/-- `sufB p q` decides whether `p` is a trailing segment of `q`. -/
def sufB (p q : List Char) : Bool := prefB p.reverse q.reverse

/-- The backward scan of `common_suffix`: Python's
`while (-p <= len(first_word)) and (-p <= len(second_word)): ...` with
`k = -p` (so `first_word[p]` is `a.getD (a.length - k)`).  `fuel` only
bounds the number of iterations; the `if` is the loop condition. -/
def suffixLoop (a b : List Char) : Nat → Nat → List Char → List Char
  | 0, _, acc => acc
  | fuel + 1, k, acc =>
    if k ≤ a.length ∧ k ≤ b.length then
      if a.getD (a.length - k) 'a' = b.getD (b.length - k) 'a' then
        suffixLoop a b fuel (k + 1) (a.getD (a.length - k) 'a' :: acc)
      else acc
    else acc

/-- `common_suffix(first_word, second_word)`: empty input gives `''`,
identical words give the whole word, otherwise scan from the last
character backwards while the characters match.  The loop runs at most
`a.length` times, hence that fuel. -/
def common_suffix (a b : Word) : Word :=
  if a.length = 0 ∨ b.length = 0 then []
  else if a = b then a
  else suffixLoop a b a.length 1 []

/-- All pairs `(words[i], words[j])` with `i < j`, in the iteration order of
the two nested `range` loops of `largest_common_suffix`. -/
def allPairs : List Word → List (Word × Word)
  | [] => []
  | w :: ws => ws.map (fun v => (w, v)) ++ allPairs ws

/-- The body of the double loop of `largest_common_suffix`: skip pairs of
equal words, keep a suffix only when strictly longer than the best so far
(so the first pair reaching the maximal length wins ties). -/
def lcsFold : List (Word × Word) → Word × Option (Word × Word) → Word × Option (Word × Word)
  | [], best => best
  | (u, v) :: rest, best =>
    if u = v then lcsFold rest best
    else
      let s := common_suffix u v
      if best.1.length < s.length then lcsFold rest (s, some (u, v))
      else lcsFold rest best

/-- `largest_common_suffix(words)`: brute force over all index pairs
`i < j`; returns the longest suffix and the pair realising it
(`none` when no pair of distinct words has been kept). -/
def largest_common_suffix (words : List Word) : Word × Option (Word × Word) :=
  lcsFold (allPairs words) ([], none)

/-- One `word_map` update of `last_char_map`: append `w` to the bucket of
`c`, creating the bucket at the end of the map when absent (Python dict
insertion order). -/
def bucketAdd : List (Char × List Word) → Char → Word → List (Char × List Word)
  | [], c, w => [(c, [w])]
  | (c', l) :: rest, c, w =>
    if c' = c then (c', l ++ [w]) :: rest
    else (c', l) :: bucketAdd rest c w

/-- The loop of `last_char_map`.  `word[-1]` raises `IndexError` on an
empty word; this is the `none` case. -/
def lcmBuild : List Word → List (Char × List Word) → Option (List (Char × List Word))
  | [], m => some m
  | w :: ws, m =>
    match w.getLast? with
    | none => none
    | some c => lcmBuild ws (bucketAdd m c w)

/-- `last_char_map(words)`: group the words by last character. -/
def last_char_map (words : List Word) : Option (List (Char × List Word)) :=
  lcmBuild words []

/-- `word_map.get(char)` with default `[]`: the bucket of character `c`. -/
def bucketGet : List (Char × List Word) → Char → List Word
  | [], _ => []
  | (c', l) :: rest, c => if c' = c then l else bucketGet rest c

/-- The loop of `largest_common_suffix2` over the buckets: run the brute
force inside each bucket, keep a result only when strictly longer. -/
def lcs2Fold : List (Char × List Word) → Word × Option (Word × Word) → Word × Option (Word × Word)
  | [], best => best
  | (_, values) :: rest, best =>
    let r := largest_common_suffix values
    if best.1.length < r.1.length then lcs2Fold rest r
    else lcs2Fold rest best

/-- `largest_common_suffix2(words)`: bucket by last character, then brute
force per bucket; `none` is the `IndexError` raised by `last_char_map` on a
list containing an empty word. -/
def largest_common_suffix2 (words : List Word) : Option (Word × Option (Word × Word)) :=
  (last_char_map words).map (fun m => lcs2Fold m ([], none))

/-- Length of the common suffix contributed by one pair of the brute-force
loop: `0` for a skipped pair of equal words. -/
def pairSuffixLen (p : Word × Word) : Nat :=
  if p.1 = p.2 then 0 else (common_suffix p.1 p.2).length

/-- The maximal common-suffix length over all pairs of distinct words. -/
def maxPairLen (words : List Word) : Nat :=
  natMax ((allPairs words).map pairSuffixLen)

/-- Total number of characters in the word list. -/
def totalLen (words : List Word) : Nat := (words.map List.length).sum

/-- A trie node: the end-of-word flag (the `'END': 0` entry of the Python
dict) and the children, as an association list in dict insertion order. -/
inductive Trie where
  | mk : Bool → List (Char × Trie) → Trie

/-- The end-of-word flag of a node. -/
def Trie.isEnd : Trie → Bool
  | .mk e _ => e

/-- The children of a node, in insertion order. -/
def Trie.children : Trie → List (Char × Trie)
  | .mk _ cs => cs

/-- `len(trie)` for a node of the Python trie: the number of dict entries,
the `'END'` entry included. -/
def nodeSize (t : Trie) : Nat :=
  t.children.length + (if t.isEnd then 1 else 0)

/-- First child labelled `c`, Python's `node[character]` lookup. -/
def lookupChild : List (Char × Trie) → Char → Option Trie
  | [], _ => none
  | (c', t') :: rest, c => if c' = c then some t' else lookupChild rest c

/-- Replace the first child labelled `c`, or append a new one: Python's
`node[character] = ...` dict assignment, keeping insertion order. -/
def setChild : List (Char × Trie) → Char → Trie → List (Char × Trie)
  | [], c, t => [(c, t)]
  | (c', t') :: rest, c, t =>
    if c' = c then (c, t) :: rest
    else (c', t') :: setChild rest c t

/-- Insert an already reversed word: walk/extend the trie one character at
a time (`if character not in node: node[character] = {}`), then mark the
final node (`node['END'] = 0`). -/
def insertRev : Trie → List Char → Trie
  | t, [] => Trie.mk true t.children
  | t, c :: rest =>
    let child :=
      match lookupChild t.children c with
      | some u => u
      | none => Trie.mk false []
    Trie.mk t.isEnd (setChild t.children c (insertRev child rest))

/-- `build_trie(words)`: insert every word reversed (`word[::-1]`) into an
initially empty trie. -/
def build_trie (words : List Word) : Trie :=
  words.foldl (fun t w => insertRev t w.reverse) (Trie.mk false [])

/-- An element of the list returned by `walk`: a single character, or the
`'END'` marker string. -/
inductive WSym where
  | ch : Char → WSym
  | END : WSym
deriving DecidableEq

/-- One step of the `for key, val in trie.items()` loop of `walk`:
`if len(r) > 0 and len(r) + 1 > len(best): best = [key] + r`
(the `isinstance(val, int)` skip of the `'END'` entry is the absence of
that entry from `children`). -/
def walkFoldStep (w : Trie → List WSym) (best : List WSym) (kc : Char × Trie) : List WSym :=
  let r := w kc.2
  if 0 < r.length ∧ best.length < r.length + 1 then WSym.ch kc.1 :: r else best

/-- The recursive `walk` of `largest_common_suffix3`, with fuel bounding
the recursion depth (the Python recursion depth is the trie height, which
the fuel used at the call site strictly dominates). -/
def walkF : Nat → Trie → List WSym
  | 0, _ => []
  | fuel + 1, t =>
    let best := t.children.foldl (walkFoldStep (walkF fuel)) []
    if 0 < best.length then best
    else if 2 ≤ nodeSize t then [WSym.END] else []

/-- `largest_common_suffix3(words)`: build the trie of reversed words and
walk it.  The trie height is at most the longest word, hence at most
`totalLen words`, so `totalLen words + 1` fuel never runs out. -/
def largest_common_suffix3 (words : List Word) : List WSym :=
  walkF (totalLen words + 1) (build_trie words)

/-- The character entries of a `walk` result (everything but the final
`'END'` marker). -/
def charsOf (l : List WSym) : List Char :=
  l.filterMap (fun s => match s with | .ch c => some c | .END => none)

/-- Depths of all branching nodes (`len(trie) >= 2`) of the trie, fuel
truncated in step with `walkF`. -/
def bdF : Nat → Trie → List Nat
  | 0, _ => []
  | fuel + 1, t =>
    (if 2 ≤ nodeSize t then [0] else []) ++
      t.children.foldr (fun kc acc => (bdF fuel kc.2).map (· + 1) ++ acc) []

/-- `memB t p`: the trie has an end-of-word mark at the end of path `p`. -/
def memB : Trie → List Char → Bool
  | t, [] => t.isEnd
  | t, c :: rest =>
    match lookupChild t.children c with
    | some u => memB u rest
    | none => false

/-- `hasPath t p`: the path `p` exists from the root of the trie. -/
def hasPath : Trie → List Char → Bool
  | _, [] => true
  | t, c :: rest =>
    match lookupChild t.children c with
    | some u => hasPath u rest
    | none => false

/-- The trie subtree reached by `t` contains an end-of-word mark. -/
inductive HasTermP : Trie → Prop where
  | here (cs : List (Char × Trie)) : HasTermP (.mk true cs)
  | there (e : Bool) (cs : List (Char × Trie)) (kc : Char × Trie)
      (hm : kc ∈ cs) (h : HasTermP kc.2) : HasTermP (.mk e cs)

/-- Structural invariant of built tries: at every node the child labels
are distinct (a Python dict) and every child subtree contains an
end-of-word mark (children are only ever created on the path of an
inserted word, whose end gets marked). -/
inductive Good : Trie → Prop where
  | mk (e : Bool) (cs : List (Char × Trie))
      (hnd : (cs.map Prod.fst).Nodup)
      (hterm : ∀ kc ∈ cs, HasTermP kc.2)
      (hrec : ∀ kc ∈ cs, Good kc.2) : Good (.mk e cs)

/-- Shape of every `walk` result: empty, or characters followed by the
single `'END'` marker. -/
def ShapeP (l : List WSym) : Prop :=
  l = [] ∨ ∃ s : List Char, l = s.map WSym.ch ++ [WSym.END]

/-- `heightLt t n`: every path of the trie is shorter than `n`. -/
def heightLt : Trie → Nat → Prop
  | _, 0 => False
  | t, n + 1 => ∀ kc ∈ t.children, heightLt kc.2 n

/-- An untyped Python value, as stored in the trie dicts: a dict with
string keys, or an int. -/
inductive PyVal where
  | dict : List (String × PyVal) → PyVal
  | int : Nat → PyVal

/-- Untyped dict lookup. -/
def pyLookup : List (String × PyVal) → String → Option PyVal
  | [], _ => none
  | (k', v') :: rest, k => if k' = k then some v' else pyLookup rest k

/-- Untyped dict assignment: replace the first entry with that key, or
append a new entry. -/
def pySet : List (String × PyVal) → String → PyVal → List (String × PyVal)
  | [], k, v => [(k, v)]
  | (k', v') :: rest, k, v =>
    if k' = k then (k, v) :: rest
    else (k', v') :: pySet rest k v

/-- The inner loop of `build_trie` on the untyped trie: walk/extend the
dict one character at a time, then set the `'END'` entry.  Reaching a
non-dict value (which would make Python raise a `TypeError`) is `none`. -/
def insertPy : PyVal → List Char → Option PyVal
  | .dict entries, [] => some (.dict (pySet entries "END" (.int 0)))
  | .dict entries, c :: rest =>
    let key := String.mk [c]
    let child :=
      match pyLookup entries key with
      | some v => v
      | none => PyVal.dict []
    match insertPy child rest with
    | some child2 => some (.dict (pySet entries key child2))
    | none => none
  | .int _, _ => none

/-- `build_trie(words)` on the untyped trie representation. -/
def build_trie_py (words : List Word) : Option PyVal :=
  words.foldlM (fun t w => insertPy t w.reverse) (PyVal.dict [])

/-- End-of-word mark at the end of path `p` in the untyped trie. -/
def pyMemB : PyVal → List Char → Bool
  | .dict entries, [] =>
    match pyLookup entries "END" with
    | some _ => true
    | none => false
  | .dict entries, c :: rest =>
    match pyLookup entries (String.mk [c]) with
    | some v => pyMemB v rest
    | none => false
  | .int _, _ => false

/-- The path `p` exists from the root of the untyped trie. -/
def pyHasPath : PyVal → List Char → Bool
  | _, [] => true
  | .dict entries, c :: rest =>
    match pyLookup entries (String.mk [c]) with
    | some v => pyHasPath v rest
    | none => false
  | .int _, _ :: _ => false

/-- Structural invariant of the untyped trie, the keys drawn from `A`:
every entry is either the `'END'` marker mapping to the int `0`, or a
single character of `A` mapping to a dict satisfying the same invariant;
keys are distinct. -/
inductive PyInvA (A : List Char) : PyVal → Prop where
  | mk (entries : List (String × PyVal))
      (hend : ∀ kv ∈ entries, kv.1 = "END" → kv.2 = PyVal.int 0)
      (hch : ∀ kv ∈ entries, kv.1 ≠ "END" →
        ∃ c ∈ A, kv.1 = String.mk [c] ∧ ∃ sub, kv.2 = PyVal.dict sub)
      (hrec : ∀ kv ∈ entries, kv.1 ≠ "END" → PyInvA A kv.2)
      (hnd : (entries.map Prod.fst).Nodup) : PyInvA A (.dict entries)

/-- Validity of the running best of the brute-force fold: the initial
`('', None)`, or a pair of distinct words of the examined list together
with its common suffix. -/
def LcsInv (S : List (Word × Word)) (best : Word × Option (Word × Word)) : Prop :=
  best = ([], none) ∨
    ∃ u v, best = (common_suffix u v, some (u, v)) ∧ (u, v) ∈ S ∧ u ≠ v

/-- All characters occurring in the word list. -/
def allChars (words : List Word) : List Char :=
  words.foldr (fun w acc => w ++ acc) []

theorem natMax_nil : natMax [] = 0 := rfl

theorem natMax_cons (x : Nat) (l : List Nat) : natMax (x :: l) = max x (natMax l) := rfl

theorem le_natMax_of_mem {x : Nat} {l : List Nat} (h : x ∈ l) : x ≤ natMax l := by
  induction l with
  | nil => cases h
  | cons y ys ih =>
    rcases List.mem_cons.1 h with rfl | h
    · exact le_max_left _ _
    · exact le_trans (ih h) (le_max_right _ _)

theorem natMax_le {l : List Nat} {b : Nat} (h : ∀ x ∈ l, x ≤ b) : natMax l ≤ b := by
  induction l with
  | nil => exact Nat.zero_le b
  | cons y ys ih =>
    exact max_le (h y (List.mem_cons_self _ _)) (ih fun x hx => h x (List.mem_cons_of_mem _ hx))

theorem natMax_mem_or_zero (l : List Nat) : natMax l = 0 ∨ natMax l ∈ l := by
  induction l with
  | nil => exact Or.inl rfl
  | cons y ys ih =>
    rw [natMax_cons]
    rcases Nat.le_total y (natMax ys) with h | h
    · rw [Nat.max_eq_right h]
      rcases ih with h0 | hm
      · exact Or.inl h0
      · exact Or.inr (List.mem_cons_of_mem _ hm)
    · rw [Nat.max_eq_left h]
      exact Or.inr (List.mem_cons_self _ _)

theorem natMax_append (l1 l2 : List Nat) : natMax (l1 ++ l2) = max (natMax l1) (natMax l2) := by
  induction l1 with
  | nil => simp [natMax_nil, natMax]
  | cons y ys ih => simp [natMax_cons, ih, Nat.max_assoc]

theorem natMax_map_succ (l : List Nat) :
    natMax (l.map (· + 1)) = if l = [] then 0 else natMax l + 1 := by
  induction l with
  | nil => rfl
  | cons y ys ih =>
    simp only [List.map_cons, natMax_cons, ih]
    by_cases h : ys = []
    · subst h; simp [natMax_nil]
    · simp [h, Nat.succ_max_succ]

theorem lcp_nil_left (b : List Char) : lcp [] b = [] := by cases b <;> rfl

theorem lcp_nil_right (a : List Char) : lcp a [] = [] := by cases a <;> rfl

theorem lcp_self (a : List Char) : lcp a a = a := by
  induction a with
  | nil => rfl
  | cons x xs ih => simp [lcp, ih]

theorem lcp_comm (a : List Char) : ∀ b, lcp a b = lcp b a := by
  induction a with
  | nil => intro b; rw [lcp_nil_left, lcp_nil_right]
  | cons x xs ih =>
    intro b
    cases b with
    | nil => rw [lcp_nil_left, lcp_nil_right]
    | cons y ys =>
      simp only [lcp]
      by_cases h : x = y
      · subst h; simp [ih]
      · have h2 : ¬ y = x := fun hyx => h hyx.symm
        simp [h, h2]

theorem lcp_length_le_left (a : List Char) : ∀ b, (lcp a b).length ≤ a.length := by
  induction a with
  | nil => intro b; rw [lcp_nil_left]
  | cons x xs ih =>
    intro b
    cases b with
    | nil => rw [lcp_nil_right]; exact Nat.zero_le _
    | cons y ys =>
      simp only [lcp]
      by_cases h : x = y
      · subst h
        simp only [if_pos rfl, List.length_cons]
        exact Nat.succ_le_succ (ih ys)
      · simp [h]

theorem prefB_iff (p : List Char) : ∀ q, prefB p q = true ↔ ∃ r, p ++ r = q := by
  induction p with
  | nil => intro q; simp [prefB]
  | cons a p ih =>
    intro q
    cases q with
    | nil => simp [prefB]
    | cons b q =>
      simp only [prefB, Bool.and_eq_true, decide_eq_true_eq, ih]
      constructor
      · rintro ⟨rfl, r, rfl⟩; exact ⟨r, rfl⟩
      · rintro ⟨r, h⟩
        cases h
        exact ⟨rfl, r, rfl⟩

theorem prefB_lcp_left (a : List Char) : ∀ b, prefB (lcp a b) a = true := by
  induction a with
  | nil => intro b; rw [lcp_nil_left]; rfl
  | cons x xs ih =>
    intro b
    cases b with
    | nil => rw [lcp_nil_right]; rfl
    | cons y ys =>
      simp only [lcp]
      by_cases h : x = y
      · simp [h, prefB, ih]
      · simp [h, prefB]

theorem prefB_lcp_iff (x : List Char) : ∀ a b, prefB x (lcp a b) = true ↔
    (prefB x a = true ∧ prefB x b = true) := by
  induction x with
  | nil => intro a b; simp [prefB]
  | cons c x ih =>
    intro a b
    cases a with
    | nil => rw [lcp_nil_left]; simp [prefB]
    | cons p a =>
      cases b with
      | nil => rw [lcp_nil_right]; simp [prefB]
      | cons q b =>
        simp only [lcp]
        by_cases h : p = q
        · subst h
          simp only [if_pos rfl, prefB, Bool.and_eq_true, decide_eq_true_eq, ih]
          tauto
        · simp only [if_neg h, prefB, Bool.and_eq_true, decide_eq_true_eq]
          constructor
          · intro hx; exact absurd hx (by simp)
          · rintro ⟨⟨rfl, _⟩, ⟨rfl, _⟩⟩; exact absurd rfl h

theorem suffixLoop_eq (a b : List Char) :
    ∀ fuel k acc, 1 ≤ k → a.length + 1 ≤ fuel + k →
      suffixLoop a b fuel k acc =
        (lcp (a.reverse.drop (k - 1)) (b.reverse.drop (k - 1))).reverse ++ acc := by
  intro fuel
  induction fuel with
  | zero =>
    intro k acc _ hk
    have h1 : a.reverse.length ≤ k - 1 := by rw [List.length_reverse]; omega
    rw [List.drop_eq_nil_of_le h1, lcp_nil_left]
    rfl
  | succ fuel ih =>
    intro k acc hk1 hk
    rw [suffixLoop]
    by_cases hg : k ≤ a.length ∧ k ≤ b.length
    · rw [if_pos hg]
      have hka : k - 1 < a.length := by omega
      have hkb : k - 1 < b.length := by omega
      have hka' : k - 1 < a.reverse.length := by rw [List.length_reverse]; exact hka
      have hkb' : k - 1 < b.reverse.length := by rw [List.length_reverse]; exact hkb
      have hia : a.length - 1 - (k - 1) = a.length - k := by omega
      have hib : b.length - 1 - (k - 1) = b.length - k := by omega
      have hga : a.getD (a.length - k) 'a' = a.reverse.getD (k - 1) 'a' := by
        rw [List.getD_eq_getElem?_getD, List.getD_eq_getElem?_getD,
          List.getElem?_reverse hka, hia]
      have hgb : b.getD (b.length - k) 'a' = b.reverse.getD (k - 1) 'a' := by
        rw [List.getD_eq_getElem?_getD, List.getD_eq_getElem?_getD,
          List.getElem?_reverse hkb, hib]
      have hk21 : k - 1 + 1 = k := by omega
      have hda : a.reverse.drop (k - 1) = a.reverse[k - 1] :: a.reverse.drop k := by
        rw [List.drop_eq_getElem_cons hka', hk21]
      have hdb : b.reverse.drop (k - 1) = b.reverse[k - 1] :: b.reverse.drop k := by
        rw [List.drop_eq_getElem_cons hkb', hk21]
      have hgda : a.reverse.getD (k - 1) 'a' = a.reverse[k - 1] := by
        rw [List.getD_eq_getElem?_getD, List.getElem?_eq_getElem hka']
        rfl
      have hgdb : b.reverse.getD (k - 1) 'a' = b.reverse[k - 1] := by
        rw [List.getD_eq_getElem?_getD, List.getElem?_eq_getElem hkb']
        rfl
      by_cases hc : a.getD (a.length - k) 'a' = b.getD (b.length - k) 'a'
      · rw [if_pos hc]
        rw [ih (k + 1) _ (by omega) (by omega)]
        have hcc : a.reverse[k - 1] = b.reverse[k - 1] := by
          rw [← hgda, ← hgdb, ← hga, ← hgb]; exact hc
        rw [hda, hdb, lcp, if_pos hcc]
        have hk2 : k + 1 - 1 = k := by omega
        rw [hk2, List.reverse_cons, List.append_assoc]
        simp only [List.cons_append, List.nil_append]
        rw [hga, hgda]
      · rw [if_neg hc]
        have hcc : ¬ a.reverse[k - 1] = b.reverse[k - 1] := by
          rw [← hgda, ← hgdb, ← hga, ← hgb]; exact hc
        rw [hda, hdb, lcp, if_neg hcc]
        rfl
    · rw [if_neg hg]
      rcases Nat.lt_or_ge a.length k with h | h
      · have h1 : a.reverse.length ≤ k - 1 := by rw [List.length_reverse]; omega
        rw [List.drop_eq_nil_of_le h1, lcp_nil_left]
        rfl
      · have hb : b.length < k := by omega
        have h1 : b.reverse.length ≤ k - 1 := by rw [List.length_reverse]; omega
        rw [List.drop_eq_nil_of_le h1, lcp_nil_right]
        rfl

theorem common_suffix_eq (a b : Word) :
    common_suffix a b = (lcp a.reverse b.reverse).reverse := by
  rw [common_suffix]
  by_cases h0 : a.length = 0 ∨ b.length = 0
  · rw [if_pos h0]
    rcases h0 with h | h
    · rw [List.length_eq_zero.1 h]; simp [lcp_nil_left]
    · rw [List.length_eq_zero.1 h]; simp [lcp_nil_right]
  · rw [if_neg h0]
    by_cases hab : a = b
    · subst hab
      rw [if_pos rfl, lcp_self, List.reverse_reverse]
    · rw [if_neg hab]
      rw [suffixLoop_eq a b a.length 1 [] (Nat.le_refl 1) (by omega)]
      simp

theorem common_suffix_comm_aux (a b : Word) : common_suffix a b = common_suffix b a := by
  rw [common_suffix_eq, common_suffix_eq, lcp_comm]

theorem common_suffix_nil_left (b : Word) : common_suffix [] b = [] := by
  simp [common_suffix]

theorem common_suffix_nil_right (a : Word) : common_suffix a [] = [] := by
  simp [common_suffix]

theorem pairSuffixLen_swap (u v : Word) : pairSuffixLen (u, v) = pairSuffixLen (v, u) := by
  unfold pairSuffixLen
  by_cases h : u = v
  · subst h; simp
  · have h2 : ¬ v = u := fun hvu => h hvu.symm
    simp only [h, h2, if_neg, not_false_iff]
    rw [common_suffix_comm_aux]

theorem mem_of_mem_allPairs {p : Word × Word} :
    ∀ {ws : List Word}, p ∈ allPairs ws → p.1 ∈ ws ∧ p.2 ∈ ws := by
  intro ws
  induction ws with
  | nil => intro h; cases h
  | cons w rest ih =>
    intro h
    rw [allPairs, List.mem_append] at h
    rcases h with h | h
    · rcases List.mem_map.1 h with ⟨v, hv, rfl⟩
      exact ⟨List.mem_cons_self _ _, List.mem_cons_of_mem _ hv⟩
    · rcases ih h with ⟨h1, h2⟩
      exact ⟨List.mem_cons_of_mem _ h1, List.mem_cons_of_mem _ h2⟩

theorem allPairs_of_mem_distinct {u v : Word} :
    ∀ {ws : List Word}, u ∈ ws → v ∈ ws → u ≠ v →
      (u, v) ∈ allPairs ws ∨ (v, u) ∈ allPairs ws := by
  intro ws
  induction ws with
  | nil => intro h; cases h
  | cons w rest ih =>
    intro hu hv huv
    by_cases hwu : u = w
    · have hv' : v ∈ rest := by
        rcases List.mem_cons.1 hv with h | h
        · exact absurd (hwu.trans h.symm) huv
        · exact h
      refine Or.inl ?_
      rw [allPairs, List.mem_append]
      exact Or.inl (List.mem_map.2 ⟨v, hv', by rw [hwu]⟩)
    · by_cases hwv : v = w
      · have hu' : u ∈ rest := by
          rcases List.mem_cons.1 hu with h | h
          · exact absurd h hwu
          · exact h
        refine Or.inr ?_
        rw [allPairs, List.mem_append]
        exact Or.inl (List.mem_map.2 ⟨u, hu', by rw [hwv]⟩)
      · have hu' : u ∈ rest := by
          rcases List.mem_cons.1 hu with h | h
          · exact absurd h hwu
          · exact h
        have hv' : v ∈ rest := by
          rcases List.mem_cons.1 hv with h | h
          · exact absurd h hwv
          · exact h
        rcases ih hu' hv' huv with h | h
        · exact Or.inl (by rw [allPairs, List.mem_append]; exact Or.inr h)
        · exact Or.inr (by rw [allPairs, List.mem_append]; exact Or.inr h)

theorem lcsFold_length (ps : List (Word × Word)) :
    ∀ best, (lcsFold ps best).1.length =
      max best.1.length (natMax (ps.map pairSuffixLen)) := by
  induction ps with
  | nil =>
    intro best
    simp [lcsFold, natMax_nil]
  | cons p rest ih =>
    intro best
    obtain ⟨u, v⟩ := p
    rw [lcsFold]
    by_cases h : u = v
    · rw [if_pos h, ih]
      have hp : pairSuffixLen (u, v) = 0 := by simp [pairSuffixLen, h]
      simp [hp, natMax_cons]
    · rw [if_neg h]
      have hp : pairSuffixLen (u, v) = (common_suffix u v).length := by
        simp [pairSuffixLen, h]
      by_cases hlt : best.1.length < (common_suffix u v).length
      · rw [if_pos hlt, ih]
        simp only [List.map_cons, natMax_cons, hp]
        omega
      · rw [if_neg hlt, ih]
        simp only [List.map_cons, natMax_cons, hp]
        omega

theorem lcsFold_inv (S : List (Word × Word)) (ps : List (Word × Word)) :
    ∀ best, LcsInv S best → (∀ p ∈ ps, p ∈ S) → LcsInv S (lcsFold ps best) := by
  induction ps with
  | nil => intro best h _; exact h
  | cons p rest ih =>
    intro best hb hS
    obtain ⟨u, v⟩ := p
    rw [lcsFold]
    by_cases h : u = v
    · rw [if_pos h]
      exact ih best hb (fun q hq => hS q (List.mem_cons_of_mem _ hq))
    · rw [if_neg h]
      by_cases hlt : best.1.length < (common_suffix u v).length
      · rw [if_pos hlt]
        refine ih _ (Or.inr ⟨u, v, rfl, hS (u, v) (List.mem_cons_self _ _), h⟩) ?_
        exact fun q hq => hS q (List.mem_cons_of_mem _ hq)
      · rw [if_neg hlt]
        exact ih best hb (fun q hq => hS q (List.mem_cons_of_mem _ hq))

theorem largest_common_suffix_length (words : List Word) :
    (largest_common_suffix words).1.length = maxPairLen words := by
  rw [largest_common_suffix, lcsFold_length, maxPairLen]
  simp

theorem largest_common_suffix_inv (words : List Word) :
    LcsInv (allPairs words) (largest_common_suffix words) := by
  rw [largest_common_suffix]
  exact lcsFold_inv _ _ _ (Or.inl rfl) (fun p hp => hp)

theorem lcp_ne_nil {x y : List Char} (h : lcp x y ≠ []) :
    ∃ c x' y', x = c :: x' ∧ y = c :: y' := by
  cases x with
  | nil => rw [lcp_nil_left] at h; exact absurd rfl h
  | cons a x' =>
    cases y with
    | nil => rw [lcp_nil_right] at h; exact absurd rfl h
    | cons b y' =>
      by_cases hab : a = b
      · exact ⟨a, x', y', rfl, by rw [hab]⟩
      · rw [lcp, if_neg hab] at h
        exact absurd rfl h

theorem common_suffix_ne_nil_last {u v : Word} (h : common_suffix u v ≠ []) :
    ∃ c, u.getLast? = some c ∧ v.getLast? = some c := by
  rw [common_suffix_eq] at h
  have hl : lcp u.reverse v.reverse ≠ [] := by
    intro h0
    rw [h0] at h
    exact h rfl
  obtain ⟨c, x', y', hx, hy⟩ := lcp_ne_nil hl
  refine ⟨c, ?_, ?_⟩
  · rw [← List.head?_reverse, hx]; rfl
  · rw [← List.head?_reverse, hy]; rfl

theorem bucketGet_bucketAdd_same (c : Char) (w : Word) :
    ∀ m, bucketGet (bucketAdd m c w) c = bucketGet m c ++ [w] := by
  intro m
  induction m with
  | nil => simp [bucketAdd, bucketGet]
  | cons e rest ih =>
    obtain ⟨c', l⟩ := e
    by_cases h : c' = c
    · simp [bucketAdd, bucketGet, h]
    · simp [bucketAdd, bucketGet, h, ih]

theorem bucketGet_bucketAdd_other (c c' : Char) (w : Word) (h : ¬ c' = c) :
    ∀ m, bucketGet (bucketAdd m c' w) c = bucketGet m c := by
  intro m
  induction m with
  | nil => simp [bucketAdd, bucketGet, h]
  | cons e rest ih =>
    obtain ⟨c'', l⟩ := e
    by_cases h2 : c'' = c'
    · subst h2
      simp [bucketAdd, bucketGet, h, ih]
    · simp only [bucketAdd, if_neg h2]
      by_cases h3 : c'' = c
      · simp [bucketGet, h3]
      · simp [bucketGet, h3, ih]

theorem bucketAdd_keys (c : Char) (w : Word) :
    ∀ m : List (Char × List Word), (bucketAdd m c w).map Prod.fst =
      if c ∈ m.map Prod.fst then m.map Prod.fst else m.map Prod.fst ++ [c] := by
  intro m
  induction m with
  | nil => simp [bucketAdd]
  | cons e rest ih =>
    obtain ⟨c', l⟩ := e
    by_cases h : c' = c
    · simp [bucketAdd, h]
    · have h2 : ¬ c = c' := fun hc => h hc.symm
      simp only [bucketAdd, if_neg h, List.map_cons, List.mem_cons]
      rw [ih]
      by_cases h3 : c ∈ rest.map Prod.fst
      · simp [h3, h2]
      · simp [h3, h2]

theorem bucketAdd_nodup {m : List (Char × List Word)} (c : Char) (w : Word)
    (h : (m.map Prod.fst).Nodup) : ((bucketAdd m c w).map Prod.fst).Nodup := by
  rw [bucketAdd_keys]
  by_cases hc : c ∈ m.map Prod.fst
  · rw [if_pos hc]; exact h
  · rw [if_neg hc]
    refine List.Nodup.append h (List.nodup_singleton c) ?_
    intro a ha hb
    rw [List.mem_singleton] at hb
    subst hb
    exact hc ha

theorem bucketGet_of_mem_nodup :
    ∀ {m : List (Char × List Word)}, (m.map Prod.fst).Nodup →
      ∀ {c l}, (c, l) ∈ m → bucketGet m c = l := by
  intro m
  induction m with
  | nil => intro _ c l h; cases h
  | cons e rest ih =>
    obtain ⟨c', l'⟩ := e
    intro hnd c l hm
    have hnd2 : (rest.map Prod.fst).Nodup := (List.nodup_cons.1 hnd).2
    have hc' : c' ∉ rest.map Prod.fst := (List.nodup_cons.1 hnd).1
    rcases List.mem_cons.1 hm with he | hm2
    · obtain ⟨h1, h2⟩ := Prod.mk.injEq .. ▸ he
      injection he with h1 h2
      rw [bucketGet, if_pos h1.symm]
      · exact h2.symm ▸ rfl
    · have hcc : ¬ c' = c := by
        intro hcc
        subst hcc
        exact hc' (List.mem_map.2 ⟨(c', l), hm2, rfl⟩)
      rw [bucketGet, if_neg hcc]
      exact ih hnd2 hm2

theorem mem_of_bucketGet_ne_nil :
    ∀ {m : List (Char × List Word)} {c}, bucketGet m c ≠ [] →
      (c, bucketGet m c) ∈ m := by
  intro m
  induction m with
  | nil => intro c h; exact absurd rfl h
  | cons e rest ih =>
    obtain ⟨c', l⟩ := e
    intro c h
    by_cases hc : c' = c
    · subst hc
      rw [bucketGet, if_pos rfl] at h ⊢
      exact List.mem_cons_self _ _
    · rw [bucketGet, if_neg hc] at h ⊢
      exact List.mem_cons_of_mem _ (ih h)

theorem lcmBuild_some (ws : List Word) :
    ∀ m, (∀ w ∈ ws, w ≠ []) →
      ∃ m', lcmBuild ws m = some m' ∧
        (∀ c, bucketGet m' c =
          bucketGet m c ++ ws.filter (fun w => w.getLast? = some c)) ∧
        ((m.map Prod.fst).Nodup → (m'.map Prod.fst).Nodup) := by
  induction ws with
  | nil =>
    intro m _
    exact ⟨m, rfl, fun c => by simp, id⟩
  | cons w ws ih =>
    intro m hw
    have hwne : w ≠ [] := hw w (List.mem_cons_self _ _)
    have hlast : w.getLast? = some (w.getLast hwne) := List.getLast?_eq_getLast w hwne
    obtain ⟨m', hm', hbg, hnd⟩ :=
      ih (bucketAdd m (w.getLast hwne) w) (fun x hx => hw x (List.mem_cons_of_mem _ hx))
    refine ⟨m', ?_, ?_, ?_⟩
    · rw [lcmBuild, hlast]
      exact hm'
    · intro c
      rw [hbg c]
      by_cases hc : w.getLast hwne = c
      · subst hc
        rw [bucketGet_bucketAdd_same]
        have : (w :: ws).filter (fun x => x.getLast? = some (w.getLast hwne)) =
            w :: ws.filter (fun x => x.getLast? = some (w.getLast hwne)) := by
          rw [List.filter_cons_of_pos]
          simp [hlast]
        rw [this, List.append_assoc]
        rfl
      · rw [bucketGet_bucketAdd_other c (w.getLast hwne) w hc]
        have : (w :: ws).filter (fun x => x.getLast? = some c) =
            ws.filter (fun x => x.getLast? = some c) := by
          rw [List.filter_cons_of_neg]
          simp [hlast, hc]
        rw [this]
    · intro hmnd
      exact hnd (bucketAdd_nodup _ _ hmnd)

theorem lcmBuild_none (ws : List Word) :
    ∀ m, (∃ w ∈ ws, w = []) → lcmBuild ws m = none := by
  induction ws with
  | nil => intro m h; obtain ⟨w, hw, _⟩ := h; cases hw
  | cons w ws ih =>
    intro m h
    by_cases hw : w = []
    · subst hw
      rfl
    · obtain ⟨x, hx, hxe⟩ := h
      have hx2 : x ∈ ws := by
        rcases List.mem_cons.1 hx with rfl | h2
        · exact absurd hxe hw
        · exact h2
      rw [lcmBuild]
      cases hl : w.getLast? with
      | none => rfl
      | some c => exact ih _ ⟨x, hx2, hxe⟩

theorem lcs2Fold_length (m : List (Char × List Word)) :
    ∀ best, (lcs2Fold m best).1.length =
      max best.1.length
        (natMax (m.map (fun e => (largest_common_suffix e.2).1.length))) := by
  induction m with
  | nil => intro best; simp [lcs2Fold, natMax_nil]
  | cons e rest ih =>
    intro best
    obtain ⟨c, values⟩ := e
    rw [lcs2Fold]
    by_cases hlt : best.1.length < (largest_common_suffix values).1.length
    · rw [if_pos hlt, ih]
      simp only [List.map_cons, natMax_cons]
      omega
    · rw [if_neg hlt, ih]
      simp only [List.map_cons, natMax_cons]
      omega

theorem largest_common_suffix2_some (words : List Word) (hw : ∀ w ∈ words, w ≠ []) :
    ∃ r, largest_common_suffix2 words = some r ∧ r.1.length = maxPairLen words := by
  obtain ⟨m', hm', hbg, hnd⟩ := lcmBuild_some words [] hw
  have hnd' : (m'.map Prod.fst).Nodup := hnd (by simp)
  have hbg' : ∀ c, bucketGet m' c = words.filter (fun w => w.getLast? = some c) := by
    intro c
    rw [hbg c]
    rfl
  refine ⟨lcs2Fold m' ([], none), ?_, ?_⟩
  · rw [largest_common_suffix2, last_char_map, hm']
    rfl
  · rw [lcs2Fold_length]
    simp only [List.length_nil, Nat.zero_max]
    apply Nat.le_antisymm
    · apply natMax_le
      intro x hx
      obtain ⟨e, he, hex⟩ := List.mem_map.1 hx
      obtain ⟨c, l⟩ := e
      have hl : bucketGet m' c = l := bucketGet_of_mem_nodup hnd' he
      have hlsub : ∀ u ∈ l, u ∈ words := by
        intro u hu
        rw [← hl, hbg'] at hu
        exact (List.mem_filter.1 hu).1
      rw [← hex, largest_common_suffix_length, maxPairLen]
      apply natMax_le
      intro y hy
      obtain ⟨p, hp, hpy⟩ := List.mem_map.1 hy
      obtain ⟨hp1, hp2⟩ := mem_of_mem_allPairs hp
      by_cases h12 : p.1 = p.2
      · rw [← hpy, pairSuffixLen, if_pos h12]
        exact Nat.zero_le _
      · rcases allPairs_of_mem_distinct (hlsub _ hp1) (hlsub _ hp2) h12 with h | h
        · rw [← hpy]
          exact le_natMax_of_mem (List.mem_map.2 ⟨(p.1, p.2), h, rfl⟩)
        · rw [← hpy, ← pairSuffixLen_swap]
          exact le_natMax_of_mem (List.mem_map.2 ⟨(p.2, p.1), h, rfl⟩)
    · rw [maxPairLen]
      apply natMax_le
      intro x hx
      obtain ⟨p, hp, hpx⟩ := List.mem_map.1 hx
      by_cases h12 : p.1 = p.2
      · rw [← hpx, pairSuffixLen, if_pos h12]
        exact Nat.zero_le _
      · by_cases hcs : common_suffix p.1 p.2 = []
        · rw [← hpx, pairSuffixLen, if_neg h12, hcs]
          exact Nat.zero_le _
        · obtain ⟨c, hc1, hc2⟩ := common_suffix_ne_nil_last hcs
          obtain ⟨hp1, hp2⟩ := mem_of_mem_allPairs hp
          have hm1 : p.1 ∈ bucketGet m' c := by
            rw [hbg']
            exact List.mem_filter.2 ⟨hp1, by simp [hc1]⟩
          have hm2 : p.2 ∈ bucketGet m' c := by
            rw [hbg']
            exact List.mem_filter.2 ⟨hp2, by simp [hc2]⟩
          have hne : bucketGet m' c ≠ [] := by
            intro h0
            rw [h0] at hm1
            cases hm1
          have hmem : (c, bucketGet m' c) ∈ m' := mem_of_bucketGet_ne_nil hne
          have hval : pairSuffixLen p ≤
              (largest_common_suffix (bucketGet m' c)).1.length := by
            rw [largest_common_suffix_length, maxPairLen]
            rcases allPairs_of_mem_distinct hm1 hm2 h12 with h | h
            · exact le_natMax_of_mem (List.mem_map.2 ⟨(p.1, p.2), h, rfl⟩)
            · rw [← pairSuffixLen_swap]
              exact le_natMax_of_mem (List.mem_map.2 ⟨(p.2, p.1), h, rfl⟩)
          rw [← hpx]
          refine le_trans hval (le_natMax_of_mem ?_)
          exact List.mem_map.2 ⟨(c, bucketGet m' c), hmem, rfl⟩

theorem lookupChild_setChild_same (c : Char) (u : Trie) :
    ∀ cs, lookupChild (setChild cs c u) c = some u := by
  intro cs
  induction cs with
  | nil => simp [setChild, lookupChild]
  | cons kc rest ih =>
    obtain ⟨c', t'⟩ := kc
    by_cases h : c' = c
    · simp [setChild, lookupChild, h]
    · simp [setChild, lookupChild, h, ih]

theorem lookupChild_setChild_other (c a : Char) (u : Trie) (h : ¬ c = a) :
    ∀ cs, lookupChild (setChild cs c u) a = lookupChild cs a := by
  intro cs
  induction cs with
  | nil => simp [setChild, lookupChild, h]
  | cons kc rest ih =>
    obtain ⟨c', t'⟩ := kc
    by_cases h2 : c' = c
    · subst h2
      simp [setChild, lookupChild, h, ih]
    · simp only [setChild, if_neg h2]
      by_cases h3 : c' = a
      · simp [lookupChild, h3]
      · simp [lookupChild, h3, ih]

theorem mem_setChild_self (c : Char) (u : Trie) :
    ∀ cs, (c, u) ∈ setChild cs c u := by
  intro cs
  induction cs with
  | nil => simp [setChild]
  | cons kc rest ih =>
    obtain ⟨c', t'⟩ := kc
    by_cases h : c' = c
    · simp [setChild, h]
    · simp only [setChild, if_neg h]
      exact List.mem_cons_of_mem _ ih

theorem setChild_mem {c : Char} {u : Trie} {kc : Char × Trie} :
    ∀ {cs}, kc ∈ setChild cs c u → kc ∈ cs ∨ kc = (c, u) := by
  intro cs
  induction cs with
  | nil =>
    intro h
    simp only [setChild, List.mem_singleton] at h
    exact Or.inr h
  | cons e rest ih =>
    obtain ⟨c', t'⟩ := e
    intro h
    by_cases h2 : c' = c
    · rw [setChild, if_pos h2] at h
      rcases List.mem_cons.1 h with h3 | h3
      · exact Or.inr h3
      · exact Or.inl (List.mem_cons_of_mem _ h3)
    · rw [setChild, if_neg h2] at h
      rcases List.mem_cons.1 h with h3 | h3
      · exact Or.inl (h3 ▸ List.mem_cons_self _ _)
      · rcases ih h3 with h4 | h4
        · exact Or.inl (List.mem_cons_of_mem _ h4)
        · exact Or.inr h4

theorem setChild_keys (c : Char) (u : Trie) :
    ∀ cs : List (Char × Trie), (setChild cs c u).map Prod.fst =
      if c ∈ cs.map Prod.fst then cs.map Prod.fst else cs.map Prod.fst ++ [c] := by
  intro cs
  induction cs with
  | nil => simp [setChild]
  | cons e rest ih =>
    obtain ⟨c', t'⟩ := e
    by_cases h : c' = c
    · simp [setChild, h]
    · have h2 : ¬ c = c' := fun hc => h hc.symm
      simp only [setChild, if_neg h, List.map_cons, List.mem_cons]
      rw [ih]
      by_cases h3 : c ∈ rest.map Prod.fst
      · simp [h3, h2]
      · simp [h3, h2]

theorem setChild_nodup {cs : List (Char × Trie)} (c : Char) (u : Trie)
    (h : (cs.map Prod.fst).Nodup) : ((setChild cs c u).map Prod.fst).Nodup := by
  rw [setChild_keys]
  by_cases hc : c ∈ cs.map Prod.fst
  · rw [if_pos hc]; exact h
  · rw [if_neg hc]
    refine List.Nodup.append h (List.nodup_singleton c) ?_
    intro a ha hb
    rw [List.mem_singleton] at hb
    subst hb
    exact hc ha

theorem lookupChild_mem {c : Char} {u : Trie} :
    ∀ {cs}, lookupChild cs c = some u → (c, u) ∈ cs := by
  intro cs
  induction cs with
  | nil => intro h; cases h
  | cons e rest ih =>
    obtain ⟨c', t'⟩ := e
    intro h
    by_cases h2 : c' = c
    · rw [lookupChild, if_pos h2] at h
      injection h with h3
      subst h2
      subst h3
      exact List.mem_cons_self _ _
    · rw [lookupChild, if_neg h2] at h
      exact List.mem_cons_of_mem _ (ih h)

theorem lookupChild_of_mem_nodup :
    ∀ {cs : List (Char × Trie)}, (cs.map Prod.fst).Nodup →
      ∀ {c u}, (c, u) ∈ cs → lookupChild cs c = some u := by
  intro cs
  induction cs with
  | nil => intro _ c u h; cases h
  | cons e rest ih =>
    obtain ⟨c', t'⟩ := e
    intro hnd c u hm
    have hnd2 : (rest.map Prod.fst).Nodup := (List.nodup_cons.1 hnd).2
    have hc' : c' ∉ rest.map Prod.fst := (List.nodup_cons.1 hnd).1
    rcases List.mem_cons.1 hm with he | hm2
    · injection he with h1 h2
      rw [lookupChild, if_pos h1.symm, h2]
    · have hcc : ¬ c' = c := by
        intro hcc
        subst hcc
        exact hc' (List.mem_map.2 ⟨(c', u), hm2, rfl⟩)
      rw [lookupChild, if_neg hcc]
      exact ih hnd2 hm2

theorem memB_mk_nil (e : Bool) (cs : List (Char × Trie)) :
    memB (Trie.mk e cs) [] = e := rfl

theorem memB_mk_cons (e : Bool) (cs : List (Char × Trie)) (c : Char) (p : List Char) :
    memB (Trie.mk e cs) (c :: p) =
      match lookupChild cs c with
      | some u => memB u p
      | none => false := rfl

theorem memB_empty (p : List Char) : memB (Trie.mk false []) p = false := by
  cases p with
  | nil => rfl
  | cons c rest => rfl

theorem memB_insertRev :
    ∀ (v : List Char) (t : Trie) (p : List Char),
      memB (insertRev t v) p = true ↔ (memB t p = true ∨ p = v) := by
  intro v
  induction v with
  | nil =>
    intro t p
    cases p with
    | nil =>
      obtain ⟨e, cs⟩ := t
      simp [insertRev, memB_mk_nil]
    | cons a p' =>
      obtain ⟨e, cs⟩ := t
      simp only [insertRev, Trie.children, memB_mk_cons]
      constructor
      · intro h; exact Or.inl h
      · intro h
        rcases h with h | h
        · exact h
        · cases h
  | cons c rest ih =>
    intro t p
    obtain ⟨e, cs⟩ := t
    cases p with
    | nil =>
      simp only [insertRev, Trie.isEnd, Trie.children, memB_mk_nil]
      constructor
      · intro h; exact Or.inl h
      · intro h
        rcases h with h | h
        · exact h
        · cases h
    | cons a p' =>
      simp only [insertRev, Trie.isEnd, Trie.children, memB_mk_cons]
      by_cases hac : c = a
      · subst hac
        rw [lookupChild_setChild_same]
        cases hl : lookupChild cs c with
        | some u =>
          simp only [ih]
          constructor
          · intro h
            rcases h with h | h
            · exact Or.inl h
            · exact Or.inr (by rw [h])
          · intro h
            rcases h with h | h
            · exact Or.inl h
            · injection h with h1 h2
              exact Or.inr h2
        | none =>
          simp only [ih, memB_empty]
          constructor
          · intro h
            rcases h with h | h
            · cases h
            · exact Or.inr (by rw [h])
          · intro h
            rcases h with h | h
            · cases h
            · injection h with h1 h2
              exact Or.inr h2
      · rw [lookupChild_setChild_other c a _ hac]
        constructor
        · intro h; exact Or.inl h
        · intro h
          rcases h with h | h
          · exact h
          · injection h with h1 h2
            exact absurd h1.symm hac

theorem memB_build_aux (ws : List Word) :
    ∀ t p, memB (ws.foldl (fun t w => insertRev t w.reverse) t) p = true ↔
      (memB t p = true ∨ ∃ w ∈ ws, p = w.reverse) := by
  induction ws with
  | nil =>
    intro t p
    simp [List.foldl_nil]
  | cons w ws ih =>
    intro t p
    rw [List.foldl_cons, ih, memB_insertRev]
    constructor
    · intro h
      rcases h with (h | h) | h
      · exact Or.inl h
      · exact Or.inr ⟨w, List.mem_cons_self _ _, h⟩
      · obtain ⟨x, hx, hxe⟩ := h
        exact Or.inr ⟨x, List.mem_cons_of_mem _ hx, hxe⟩
    · intro h
      rcases h with h | ⟨x, hx, hxe⟩
      · exact Or.inl (Or.inl h)
      · rcases List.mem_cons.1 hx with rfl | hx2
        · exact Or.inl (Or.inr hxe)
        · exact Or.inr ⟨x, hx2, hxe⟩

theorem memB_build_trie (words : List Word) (p : List Char) :
    memB (build_trie words) p = true ↔ ∃ w ∈ words, p = w.reverse := by
  rw [build_trie, memB_build_aux]
  simp [memB_empty]

theorem hasPath_of_memB : ∀ (p q : List Char) (t : Trie),
    memB t (p ++ q) = true → hasPath t p = true := by
  intro p
  induction p with
  | nil => intro q t _; rfl
  | cons c p' ih =>
    intro q t h
    obtain ⟨e, cs⟩ := t
    rw [List.cons_append, memB_mk_cons] at h
    rw [hasPath]
    cases hl : lookupChild cs c with
    | some u =>
      rw [hl] at h
      simp only [Trie.children, hl]
      exact ih q u h
    | none =>
      rw [hl] at h
      cases h

theorem good_empty : Good (Trie.mk false []) := by
  refine Good.mk false [] List.nodup_nil ?_ ?_
  · intro kc h; cases h
  · intro kc h; cases h

theorem hasTermP_insertRev : ∀ (v : List Char) (t : Trie), HasTermP (insertRev t v) := by
  intro v
  induction v with
  | nil =>
    intro t
    exact HasTermP.here t.children
  | cons c rest ih =>
    intro t
    refine HasTermP.there t.isEnd _ (c, insertRev (match lookupChild t.children c with
      | some u => u
      | none => Trie.mk false []) rest) ?_ ?_
    · exact mem_setChild_self _ _ _
    · exact ih _

theorem good_insertRev : ∀ (v : List Char) (t : Trie), Good t → Good (insertRev t v) := by
  intro v
  induction v with
  | nil =>
    intro t hg
    obtain ⟨e, cs⟩ := t
    cases hg with
    | mk e cs hnd hterm hrec =>
      exact Good.mk true cs hnd hterm hrec
  | cons c rest ih =>
    intro t hg
    obtain ⟨e, cs⟩ := t
    cases hg with
    | mk e cs hnd hterm hrec =>
      have hchild : Good (match lookupChild cs c with
          | some u => u
          | none => Trie.mk false []) := by
        cases hl : lookupChild cs c with
        | some u => exact hrec (c, u) (lookupChild_mem hl)
        | none => exact good_empty
      rw [insertRev]
      refine Good.mk e _ ?_ ?_ ?_
      · exact setChild_nodup c _ hnd
      · intro kc hm
        rcases setChild_mem hm with h | h
        · exact hterm kc h
        · rw [h]
          exact hasTermP_insertRev rest _
      · intro kc hm
        rcases setChild_mem hm with h | h
        · exact hrec kc h
        · rw [h]
          exact ih _ hchild

theorem good_build_aux (ws : List Word) :
    ∀ t, Good t → Good (ws.foldl (fun t w => insertRev t w.reverse) t) := by
  induction ws with
  | nil => intro t h; exact h
  | cons w ws ih =>
    intro t h
    rw [List.foldl_cons]
    exact ih _ (good_insertRev _ _ h)

theorem good_build_trie (words : List Word) : Good (build_trie words) :=
  good_build_aux words _ good_empty

theorem memB_of_hasTermP : ∀ {t : Trie}, Good t → HasTermP t → ∃ x, memB t x = true := by
  intro t hg ht
  induction ht with
  | here cs => exact ⟨[], rfl⟩
  | there e cs kc hm h ih =>
    cases hg with
    | mk e cs hnd hterm hrec =>
      obtain ⟨x, hx⟩ := ih (hrec kc hm)
      refine ⟨kc.1 :: x, ?_⟩
      rw [memB_mk_cons, lookupChild_of_mem_nodup hnd (by exact hm)]
      exact hx

theorem two_mem_le_length {α : Type} {x y : α} :
    ∀ {l : List α}, x ∈ l → y ∈ l → x ≠ y → 2 ≤ l.length := by
  intro l hx hy hxy
  cases l with
  | nil => cases hx
  | cons z rest =>
    cases rest with
    | nil =>
      rw [List.mem_singleton] at hx hy
      exact absurd (hx.trans hy.symm) hxy
    | cons z2 rest2 =>
      simp only [List.length_cons]
      omega

theorem mem_foldr_append {α β : Type} (f : α → List β) :
    ∀ (l : List α) (b : β),
      (b ∈ l.foldr (fun x acc => f x ++ acc) [] ↔ ∃ x ∈ l, b ∈ f x) := by
  intro l
  induction l with
  | nil => intro b; simp
  | cons x rest ih =>
    intro b
    rw [List.foldr_cons, List.mem_append, ih]
    constructor
    · intro h
      rcases h with h | ⟨y, hy, hb⟩
      · exact ⟨x, List.mem_cons_self _ _, h⟩
      · exact ⟨y, List.mem_cons_of_mem _ hy, hb⟩
    · intro h
      obtain ⟨y, hy, hb⟩ := h
      rcases List.mem_cons.1 hy with rfl | hy2
      · exact Or.inl hb
      · exact Or.inr ⟨y, hy2, hb⟩

theorem natMax_foldr_append {α : Type} (f : α → List Nat) :
    ∀ l : List α, natMax (l.foldr (fun x acc => f x ++ acc) []) =
      natMax (l.map (fun x => natMax (f x))) := by
  intro l
  induction l with
  | nil => rfl
  | cons x rest ih =>
    rw [List.foldr_cons, natMax_append, ih, List.map_cons, natMax_cons]

theorem foldr_append_eq_nil {α β : Type} (f : α → List β) :
    ∀ l : List α, (l.foldr (fun x acc => f x ++ acc) [] = []) ↔ ∀ x ∈ l, f x = [] := by
  intro l
  induction l with
  | nil => simp
  | cons x rest ih =>
    rw [List.foldr_cons, List.append_eq_nil, ih]
    constructor
    · rintro ⟨h1, h2⟩ y hy
      rcases List.mem_cons.1 hy with rfl | hy2
      · exact h1
      · exact h2 y hy2
    · intro h
      exact ⟨h x (List.mem_cons_self _ _), fun y hy => h y (List.mem_cons_of_mem _ hy)⟩

theorem walkFoldStep_length (w : Trie → List WSym) (best : List WSym) (kc : Char × Trie) :
    (walkFoldStep w best kc).length =
      max best.length (if (w kc.2).length = 0 then 0 else (w kc.2).length + 1) := by
  rw [walkFoldStep]
  by_cases h0 : (w kc.2).length = 0
  · rw [if_pos h0]
    have : ¬ (0 < (w kc.2).length ∧ best.length < (w kc.2).length + 1) := by omega
    rw [if_neg this]
    omega
  · rw [if_neg h0]
    by_cases h1 : best.length < (w kc.2).length + 1
    · rw [if_pos ⟨by omega, h1⟩]
      simp only [List.length_cons]
      omega
    · have : ¬ (0 < (w kc.2).length ∧ best.length < (w kc.2).length + 1) := by
        intro h
        exact h1 h.2
      rw [if_neg this]
      omega

theorem walkFold_length (w : Trie → List WSym) :
    ∀ (cs : List (Char × Trie)) (best : List WSym),
      (cs.foldl (walkFoldStep w) best).length =
        max best.length (natMax (cs.map (fun kc =>
          if (w kc.2).length = 0 then 0 else (w kc.2).length + 1))) := by
  intro cs
  induction cs with
  | nil => intro best; simp [natMax_nil]
  | cons kc rest ih =>
    intro best
    rw [List.foldl_cons, ih, walkFoldStep_length, List.map_cons, natMax_cons]
    omega

theorem walkFold_shape (w : Trie → List WSym) :
    ∀ (cs : List (Char × Trie)) (best : List WSym), ShapeP best →
      (∀ kc ∈ cs, ShapeP (w kc.2)) → ShapeP (cs.foldl (walkFoldStep w) best) := by
  intro cs
  induction cs with
  | nil => intro best hb _; exact hb
  | cons kc rest ih =>
    intro best hb hcs
    rw [List.foldl_cons]
    refine ih _ ?_ (fun x hx => hcs x (List.mem_cons_of_mem _ hx))
    rw [walkFoldStep]
    by_cases hcond : 0 < (w kc.2).length ∧ best.length < (w kc.2).length + 1
    · rw [if_pos hcond]
      rcases hcs kc (List.mem_cons_self _ _) with h | ⟨s, hs⟩
      · rw [h] at hcond
        exact absurd hcond.1 (by simp)
      · exact Or.inr ⟨kc.1 :: s, by rw [hs]; rfl⟩
    · rw [if_neg hcond]
      exact hb

theorem walkF_spec : ∀ (fuel : Nat) (t : Trie),
    ShapeP (walkF fuel t) ∧
      (walkF fuel t).length =
        (if bdF fuel t = [] then 0 else natMax (bdF fuel t) + 1) := by
  intro fuel
  induction fuel with
  | zero =>
    intro t
    exact ⟨Or.inl rfl, by simp [walkF, bdF]⟩
  | succ fuel ih =>
    intro t
    obtain ⟨e, cs⟩ := t
    have hwalk : walkF (fuel + 1) (Trie.mk e cs) =
        (if 0 < (cs.foldl (walkFoldStep (walkF fuel)) []).length
         then cs.foldl (walkFoldStep (walkF fuel)) []
         else if 2 ≤ nodeSize (Trie.mk e cs) then [WSym.END] else []) := rfl
    set flat := cs.foldr (fun kc acc => (bdF fuel kc.2).map (· + 1) ++ acc) [] with hflat
    have hbd : bdF (fuel + 1) (Trie.mk e cs) =
        (if 2 ≤ nodeSize (Trie.mk e cs) then [0] else []) ++ flat := rfl
    set B := natMax (cs.map (fun kc => natMax ((bdF fuel kc.2).map (· + 1)))) with hB
    have hflatmax : natMax flat = B := natMax_foldr_append _ cs
    have hmu : ∀ kc ∈ cs,
        (if (walkF fuel kc.2).length = 0 then 0 else (walkF fuel kc.2).length + 1) =
          (if natMax ((bdF fuel kc.2).map (· + 1)) = 0 then 0
           else natMax ((bdF fuel kc.2).map (· + 1)) + 1) := by
      intro kc _
      rw [(ih kc.2).2, natMax_map_succ]
    have hA : natMax (cs.map (fun kc =>
        if (walkF fuel kc.2).length = 0 then 0 else (walkF fuel kc.2).length + 1)) =
          (if B = 0 then 0 else B + 1) := by
      apply Nat.le_antisymm
      · apply natMax_le
        intro x hx
        obtain ⟨kc, hkc, hxe⟩ := List.mem_map.1 hx
        rw [hmu kc hkc] at hxe
        have hnu : natMax ((bdF fuel kc.2).map (· + 1)) ≤ B :=
          le_natMax_of_mem (List.mem_map.2 ⟨kc, hkc, rfl⟩)
        by_cases hz : natMax ((bdF fuel kc.2).map (· + 1)) = 0
        · rw [if_pos hz] at hxe
          omega
        · rw [if_neg hz] at hxe
          by_cases hBz : B = 0
          · omega
          · rw [if_neg hBz]
            omega
      · by_cases hBz : B = 0
        · rw [if_pos hBz]
          exact Nat.zero_le _
        · rw [if_neg hBz]
          rcases natMax_mem_or_zero
            (cs.map (fun kc => natMax ((bdF fuel kc.2).map (· + 1)))) with h | h
          · exact absurd (by rw [hB]; exact h) hBz
          · rw [← hB] at h
            obtain ⟨kc, hkc, hke⟩ := List.mem_map.1 h
            refine le_natMax_of_mem (List.mem_map.2 ⟨kc, hkc, ?_⟩)
            rw [hmu kc hkc, hke, if_neg hBz]
    have hflatnil : flat = [] ↔ ∀ kc ∈ cs, bdF fuel kc.2 = [] := by
      rw [hflat, foldr_append_eq_nil]
      constructor
      · intro h kc hkc
        exact List.map_eq_nil_iff.1 (h kc hkc)
      · intro h kc hkc
        rw [h kc hkc]
        rfl
    have hBflat : B = 0 → flat = [] := by
      intro hBz
      rw [hflatnil]
      intro kc hkc
      have hle : natMax ((bdF fuel kc.2).map (· + 1)) ≤ B :=
        le_natMax_of_mem (List.mem_map.2 ⟨kc, hkc, rfl⟩)
      rw [natMax_map_succ] at hle
      by_cases hbe : bdF fuel kc.2 = []
      · exact hbe
      · rw [if_neg hbe] at hle
        omega
    constructor
    · rw [hwalk]
      by_cases hp : 0 < (cs.foldl (walkFoldStep (walkF fuel)) []).length
      · rw [if_pos hp]
        exact walkFold_shape _ cs [] (Or.inl rfl) (fun kc _ => (ih kc.2).1)
      · rw [if_neg hp]
        by_cases hs : 2 ≤ nodeSize (Trie.mk e cs)
        · rw [if_pos hs]
          exact Or.inr ⟨[], rfl⟩
        · rw [if_neg hs]
          exact Or.inl rfl
    · by_cases hBz : B = 0
      · have hfl : flat = [] := hBflat hBz
        have hcond : ¬ 0 < (cs.foldl (walkFoldStep (walkF fuel)) []).length := by
          rw [walkFold_length, hA, if_pos hBz]
          simp
        rw [hwalk, if_neg hcond, hbd, hfl]
        by_cases hs : 2 ≤ nodeSize (Trie.mk e cs)
        · rw [if_pos hs, if_pos hs]
          simp [natMax_cons, natMax_nil]
        · rw [if_neg hs, if_neg hs]
          simp
      · have hcond : 0 < (cs.foldl (walkFoldStep (walkF fuel)) []).length := by
          rw [walkFold_length, hA, if_neg hBz]
          simp only [List.length_nil, Nat.zero_max]
          omega
        rw [hwalk, if_pos hcond, walkFold_length, hA, if_neg hBz, hbd]
        simp only [List.length_nil, Nat.zero_max]
        have hflne : flat ≠ [] := by
          intro hfl
          apply hBz
          rw [hB]
          apply Nat.le_antisymm ?_ (Nat.zero_le _)
          apply natMax_le
          intro x hx
          obtain ⟨kc, hkc, hxe⟩ := List.mem_map.1 hx
          rw [hflatnil.1 hfl kc hkc] at hxe
          rw [← hxe]
          exact Nat.le_refl 0
        have happne : (if 2 ≤ nodeSize (Trie.mk e cs) then ([0]:List Nat) else []) ++ flat ≠ [] := by
          intro h
          rcases List.append_eq_nil.1 h with ⟨_, h2⟩
          exact hflne h2
        rw [if_neg happne, natMax_append, hflatmax]
        by_cases hs : 2 ≤ nodeSize (Trie.mk e cs)
        · rw [if_pos hs]
          have h01 : natMax [0] = 0 := rfl
          rw [h01]
          omega
        · rw [if_neg hs, natMax_nil]
          omega

theorem charsOf_of_shape (s : List Char) :
    charsOf (s.map WSym.ch ++ [WSym.END]) = s := by
  rw [charsOf, List.filterMap_append, List.filterMap_map]
  have h1 : List.filterMap
      ((fun s => match s with | WSym.ch c => some c | WSym.END => none) ∘ WSym.ch) s = s := by
    have h0 : ((fun s => match s with | WSym.ch c => some c | WSym.END => none) ∘ WSym.ch) =
        fun c : Char => some c := rfl
    rw [h0, List.filterMap_some]
  rw [h1]
  simp

theorem walkF_charsOf_length (fuel : Nat) (t : Trie) :
    (charsOf (walkF fuel t)).length = natMax (bdF fuel t) := by
  obtain ⟨hsh, hlen⟩ := walkF_spec fuel t
  by_cases hbe : bdF fuel t = []
  · rw [if_pos hbe] at hlen
    have h0 : walkF fuel t = [] := List.length_eq_zero.1 hlen
    rw [h0, hbe]
    rfl
  · rw [if_neg hbe] at hlen
    rcases hsh with h | ⟨s, hs⟩
    · rw [h] at hlen
      simp at hlen
    · rw [hs, charsOf_of_shape]
      rw [hs] at hlen
      simp only [List.length_append, List.length_map, List.length_cons,
        List.length_nil] at hlen
      omega

theorem walkF_eq_nil_iff (fuel : Nat) (t : Trie) :
    walkF fuel t = [] ↔ bdF fuel t = [] := by
  obtain ⟨_, hlen⟩ := walkF_spec fuel t
  constructor
  · intro h
    rw [h] at hlen
    by_cases hbe : bdF fuel t = []
    · exact hbe
    · rw [if_neg hbe] at hlen
      simp at hlen
  · intro h
    rw [if_pos h] at hlen
    exact List.length_eq_zero.1 hlen

theorem nodeSize_mk (e : Bool) (cs : List (Char × Trie)) :
    nodeSize (Trie.mk e cs) = cs.length + (if e then 1 else 0) := rfl

theorem memB_cons_some {e : Bool} {cs : List (Char × Trie)} {c : Char} {p : List Char}
    {u : Trie} (hl : lookupChild cs c = some u) :
    memB (Trie.mk e cs) (c :: p) = memB u p := by
  rw [memB_mk_cons, hl]

theorem memB_cons_none {e : Bool} {cs : List (Char × Trie)} {c : Char} {p : List Char}
    (hl : lookupChild cs c = none) :
    memB (Trie.mk e cs) (c :: p) = false := by
  rw [memB_mk_cons, hl]

theorem lcp_cons_eq (a : Char) (p q : List Char) : lcp (a :: p) (a :: q) = a :: lcp p q := by
  simp [lcp]

theorem lcp_cons_ne {a b : Char} (p q : List Char) (h : ¬ a = b) :
    lcp (a :: p) (b :: q) = [] := by
  simp [lcp, h]

theorem bdF_succ_eq (fuel : Nat) (t : Trie) :
    bdF (fuel + 1) t = (if 2 ≤ nodeSize t then [0] else []) ++
      t.children.foldr (fun kc acc => (bdF fuel kc.2).map (· + 1) ++ acc) [] := rfl

theorem bdF_zero_mem {t : Trie} {fuel : Nat} (h : 2 ≤ nodeSize t) (hf : 0 < fuel) :
    0 ∈ bdF fuel t := by
  cases fuel with
  | zero => exact absurd hf (by omega)
  | succ f =>
    rw [bdF_succ_eq, if_pos h]
    exact List.mem_append_left _ (List.mem_singleton.2 rfl)

theorem bdF_succ_mem {t : Trie} {fuel d : Nat} {c : Char} {u : Trie}
    (hm : (c, u) ∈ t.children) (hd : d ∈ bdF fuel u) : d + 1 ∈ bdF (fuel + 1) t := by
  rw [bdF_succ_eq]
  apply List.mem_append_right
  rw [mem_foldr_append]
  exact ⟨(c, u), hm, List.mem_map.2 ⟨d, hd, rfl⟩⟩

theorem bdF_of_two_mem : ∀ (p q : List Char) (t : Trie) (fuel : Nat),
    memB t p = true → memB t q = true → p ≠ q → (lcp p q).length < fuel →
    (lcp p q).length ∈ bdF fuel t := by
  intro p
  induction p with
  | nil =>
    intro q t fuel hp hq hpq hfuel
    cases q with
    | nil => exact absurd rfl hpq
    | cons b q' =>
      rw [lcp_nil_left] at hfuel ⊢
      obtain ⟨e, cs⟩ := t
      rw [memB_mk_nil] at hp
      cases hl : lookupChild cs b with
      | none => rw [memB_cons_none hl] at hq; cases hq
      | some u =>
        have hmem := lookupChild_mem hl
        have hcs : 1 ≤ cs.length := by
          cases cs with
          | nil => cases hmem
          | cons _ _ => simp only [List.length_cons]; omega
        have hsize : 2 ≤ nodeSize (Trie.mk e cs) := by
          rw [nodeSize_mk, hp]
          simp only [if_pos]
          omega
        exact bdF_zero_mem hsize (by simpa using hfuel)
  | cons a p' ih =>
    intro q t fuel hp hq hpq hfuel
    cases q with
    | nil =>
      rw [lcp_nil_right] at hfuel ⊢
      obtain ⟨e, cs⟩ := t
      rw [memB_mk_nil] at hq
      cases hl : lookupChild cs a with
      | none => rw [memB_cons_none hl] at hp; cases hp
      | some u =>
        have hmem := lookupChild_mem hl
        have hcs : 1 ≤ cs.length := by
          cases cs with
          | nil => cases hmem
          | cons _ _ => simp only [List.length_cons]; omega
        have hsize : 2 ≤ nodeSize (Trie.mk e cs) := by
          rw [nodeSize_mk, hq]
          simp only [if_pos]
          omega
        exact bdF_zero_mem hsize (by simpa using hfuel)
    | cons b q' =>
      obtain ⟨e, cs⟩ := t
      by_cases hab : a = b
      · subst hab
        cases hl : lookupChild cs a with
        | none => rw [memB_cons_none hl] at hp; cases hp
        | some u =>
          rw [memB_cons_some hl] at hp hq
          have hpq' : p' ≠ q' := fun h => hpq (by rw [h])
          rw [lcp_cons_eq] at hfuel ⊢
          simp only [List.length_cons] at hfuel ⊢
          cases fuel with
          | zero => exact absurd hfuel (by omega)
          | succ f =>
            have hfl : (lcp p' q').length < f := by omega
            exact bdF_succ_mem (lookupChild_mem hl) (ih q' u f hp hq hpq' hfl)
      · cases hla : lookupChild cs a with
        | none => rw [memB_cons_none hla] at hp; cases hp
        | some u =>
          cases hlb : lookupChild cs b with
          | none => rw [memB_cons_none hlb] at hq; cases hq
          | some v =>
            rw [lcp_cons_ne p' q' hab] at hfuel ⊢
            have hma := lookupChild_mem hla
            have hmb := lookupChild_mem hlb
            have hne : ((a, u) : Char × Trie) ≠ (b, v) := by
              intro h
              injection h with h1 _
              exact hab h1
            have h2 : 2 ≤ cs.length := two_mem_le_length hma hmb hne
            have hsize : 2 ≤ nodeSize (Trie.mk e cs) := by
              rw [nodeSize_mk]
              by_cases he : e = true
              · rw [he]; simp only [if_pos]; omega
              · rw [Bool.not_eq_true] at he
                rw [he]
                simp only [Bool.false_eq_true, if_neg, if_false]
                omega
            exact bdF_zero_mem hsize (by simpa using hfuel)

theorem bdF_sound : ∀ (fuel : Nat) (t : Trie) (d : Nat), Good t → d ∈ bdF fuel t →
    ∃ p q, memB t p = true ∧ memB t q = true ∧ p ≠ q ∧ d ≤ (lcp p q).length := by
  intro fuel
  induction fuel with
  | zero =>
    intro t d _ hd
    simp [bdF] at hd
  | succ fuel ih =>
    intro t d hg hd
    obtain ⟨e, cs⟩ := t
    cases hg with
    | mk e cs hnd hterm hrec =>
      rw [bdF_succ_eq] at hd
      rcases List.mem_append.1 hd with hd | hd
      · by_cases hs : 2 ≤ nodeSize (Trie.mk e cs)
        · rw [if_pos hs] at hd
          have hd0 : d = 0 := List.mem_singleton.1 hd
          subst hd0
          rw [nodeSize_mk] at hs
          by_cases he : e = true
          · subst he
            cases cs with
            | nil => simp at hs
            | cons kc rest =>
              obtain ⟨x, hx⟩ := memB_of_hasTermP
                (hrec kc (List.mem_cons_self _ _)) (hterm kc (List.mem_cons_self _ _))
              refine ⟨[], kc.1 :: x, rfl, ?_, by simp, Nat.zero_le _⟩
              rw [memB_cons_some (lookupChild_of_mem_nodup hnd
                (show (kc.1, kc.2) ∈ kc :: rest by rw [Prod.mk.eta]; exact List.mem_cons_self _ _))]
              exact hx
          · rw [Bool.not_eq_true] at he
            subst he
            simp only [Bool.false_eq_true, if_neg, if_false, Nat.add_zero] at hs
            cases cs with
            | nil => simp at hs
            | cons kc1 rest1 =>
              cases rest1 with
              | nil => simp at hs
              | cons kc2 rest2 =>
                have hk12 : kc1.1 ≠ kc2.1 := by
                  intro h
                  have h1 : kc1.1 ∉ (kc2 :: rest2).map Prod.fst :=
                    (List.nodup_cons.1 hnd).1
                  exact h1 (List.mem_map.2 ⟨kc2, List.mem_cons_self _ _, h.symm⟩)
                obtain ⟨x1, hx1⟩ := memB_of_hasTermP
                  (hrec kc1 (List.mem_cons_self _ _)) (hterm kc1 (List.mem_cons_self _ _))
                obtain ⟨x2, hx2⟩ := memB_of_hasTermP
                  (hrec kc2 (List.mem_cons_of_mem _ (List.mem_cons_self _ _)))
                  (hterm kc2 (List.mem_cons_of_mem _ (List.mem_cons_self _ _)))
                refine ⟨kc1.1 :: x1, kc2.1 :: x2, ?_, ?_, ?_, Nat.zero_le _⟩
                · rw [memB_cons_some (lookupChild_of_mem_nodup hnd
                    (show (kc1.1, kc1.2) ∈ kc1 :: kc2 :: rest2 by
                      rw [Prod.mk.eta]; exact List.mem_cons_self _ _))]
                  exact hx1
                · rw [memB_cons_some (lookupChild_of_mem_nodup hnd
                    (show (kc2.1, kc2.2) ∈ kc1 :: kc2 :: rest2 by
                      rw [Prod.mk.eta]
                      exact List.mem_cons_of_mem _ (List.mem_cons_self _ _)))]
                  exact hx2
                · intro h
                  injection h with h1 _
                  exact hk12 h1
        · rw [if_neg hs] at hd
          cases hd
      · rw [mem_foldr_append] at hd
        obtain ⟨kc, hkc, hdm⟩ := hd
        obtain ⟨d', hd', hde⟩ := List.mem_map.1 hdm
        obtain ⟨p', q', hp', hq', hpq', hle⟩ := ih kc.2 d' (hrec kc hkc) hd'
        refine ⟨kc.1 :: p', kc.1 :: q', ?_, ?_, ?_, ?_⟩
        · rw [memB_cons_some (lookupChild_of_mem_nodup hnd
            (show (kc.1, kc.2) ∈ cs by rw [Prod.mk.eta]; exact hkc))]
          exact hp'
        · rw [memB_cons_some (lookupChild_of_mem_nodup hnd
            (show (kc.1, kc.2) ∈ cs by rw [Prod.mk.eta]; exact hkc))]
          exact hq'
        · intro h
          injection h with _ h2
          exact hpq' h2
        · rw [lcp_cons_eq]
          simp only [List.length_cons]
          omega

theorem totalLen_mem_le {w : Word} : ∀ {words : List Word}, w ∈ words →
    w.length ≤ totalLen words := by
  intro words
  induction words with
  | nil => intro h; cases h
  | cons x rest ih =>
    intro h
    rw [totalLen, List.map_cons, List.sum_cons]
    rcases List.mem_cons.1 h with rfl | h2
    · omega
    · have := ih h2
      rw [totalLen] at this
      omega

theorem largest_common_suffix3_length (words : List Word) :
    (charsOf (largest_common_suffix3 words)).length = maxPairLen words := by
  rw [largest_common_suffix3, walkF_charsOf_length, maxPairLen]
  apply Nat.le_antisymm
  · apply natMax_le
    intro d hd
    obtain ⟨p, q, hp, hq, hpq, hle⟩ :=
      bdF_sound (totalLen words + 1) (build_trie words) d (good_build_trie words) hd
    obtain ⟨u, hu, hue⟩ := (memB_build_trie words p).1 hp
    obtain ⟨v, hv, hve⟩ := (memB_build_trie words q).1 hq
    have huv : u ≠ v := by
      intro h
      subst h
      exact hpq (hue.trans hve.symm)
    have hlen : (lcp p q).length = (common_suffix u v).length := by
      rw [hue, hve, common_suffix_eq, List.length_reverse]
    rcases allPairs_of_mem_distinct hu hv huv with h | h
    · refine le_trans hle ?_
      have hvp : (common_suffix u v).length = pairSuffixLen (u, v) := by
        rw [pairSuffixLen, if_neg (by exact huv)]
      rw [hlen, hvp]
      exact le_natMax_of_mem (List.mem_map.2 ⟨(u, v), h, rfl⟩)
    · refine le_trans hle ?_
      have hvp : (common_suffix u v).length = pairSuffixLen (v, u) := by
        rw [← pairSuffixLen_swap, pairSuffixLen, if_neg (by exact huv)]
      rw [hlen, hvp]
      exact le_natMax_of_mem (List.mem_map.2 ⟨(v, u), h, rfl⟩)
  · apply natMax_le
    intro x hx
    obtain ⟨p, hp, hpx⟩ := List.mem_map.1 hx
    by_cases h12 : p.1 = p.2
    · rw [← hpx, pairSuffixLen, if_pos h12]
      exact Nat.zero_le _
    · obtain ⟨hp1, hp2⟩ := mem_of_mem_allPairs hp
      have hm1 : memB (build_trie words) p.1.reverse = true :=
        (memB_build_trie _ _).2 ⟨p.1, hp1, rfl⟩
      have hm2 : memB (build_trie words) p.2.reverse = true :=
        (memB_build_trie _ _).2 ⟨p.2, hp2, rfl⟩
      have hne : p.1.reverse ≠ p.2.reverse := by
        intro h
        exact h12 (List.reverse_injective h)
      have hlcp : (lcp p.1.reverse p.2.reverse).length = (common_suffix p.1 p.2).length := by
        rw [common_suffix_eq, List.length_reverse]
      have hfuel : (lcp p.1.reverse p.2.reverse).length < totalLen words + 1 := by
        have h1 := lcp_length_le_left p.1.reverse p.2.reverse
        rw [List.length_reverse] at h1
        have h2 := totalLen_mem_le hp1
        omega
      have hmem := bdF_of_two_mem _ _ _ _ hm1 hm2 hne hfuel
      rw [← hpx, pairSuffixLen, if_neg h12, ← hlcp]
      exact le_natMax_of_mem hmem

theorem heightLt_mono : ∀ (n : Nat) (t : Trie), heightLt t n → heightLt t (n + 1) := by
  intro n
  induction n with
  | zero => intro t h; cases h
  | succ n ih =>
    intro t h kc hkc
    exact ih _ (h kc hkc)

theorem heightLt_insertRev : ∀ (v : List Char) (t : Trie) (n : Nat),
    heightLt t n → v.length < n → heightLt (insertRev t v) n := by
  intro v
  induction v with
  | nil =>
    intro t n ht hv
    cases n with
    | zero => exact absurd hv (by omega)
    | succ n =>
      intro kc hkc
      exact ht kc hkc
  | cons c rest ih =>
    intro t n ht hv
    cases n with
    | zero => exact absurd hv (by omega)
    | succ n =>
      have hn1 : 0 < n := by
        simp only [List.length_cons] at hv
        omega
      have hch : heightLt (match lookupChild t.children c with
          | some u => u
          | none => Trie.mk false []) n := by
        cases hl : lookupChild t.children c with
        | some u => exact ht (c, u) (lookupChild_mem hl)
        | none =>
          cases n with
          | zero => exact absurd hn1 (by omega)
          | succ m => intro kc hkc; cases hkc
      intro kc hkc
      rcases setChild_mem hkc with h | h
      · exact ht kc h
      · rw [h]
        refine ih _ n hch ?_
        simp only [List.length_cons] at hv
        omega

theorem heightLt_build_aux (ws : List Word) :
    ∀ (t : Trie) (n : Nat), heightLt t n → (∀ w ∈ ws, w.length < n) →
      heightLt (ws.foldl (fun t w => insertRev t w.reverse) t) n := by
  induction ws with
  | nil => intro t n ht _; exact ht
  | cons w ws ih =>
    intro t n ht hw
    rw [List.foldl_cons]
    refine ih _ n ?_ (fun x hx => hw x (List.mem_cons_of_mem _ hx))
    refine heightLt_insertRev _ _ _ ht ?_
    rw [List.length_reverse]
    exact hw w (List.mem_cons_self _ _)

theorem heightLt_build_trie (words : List Word) :
    heightLt (build_trie words) (totalLen words + 1) := by
  rw [build_trie]
  refine heightLt_build_aux words _ _ ?_ ?_
  · intro kc hkc
    cases hkc
  · intro w hw
    have := totalLen_mem_le hw
    omega

theorem foldl_walkFoldStep_congr (w1 w2 : Trie → List WSym) :
    ∀ (cs : List (Char × Trie)) (best : List WSym),
      (∀ kc ∈ cs, w1 kc.2 = w2 kc.2) →
      cs.foldl (walkFoldStep w1) best = cs.foldl (walkFoldStep w2) best := by
  intro cs
  induction cs with
  | nil => intro best _; rfl
  | cons kc rest ih =>
    intro best h
    rw [List.foldl_cons, List.foldl_cons]
    have hstep : walkFoldStep w1 best kc = walkFoldStep w2 best kc := by
      rw [walkFoldStep, walkFoldStep, h kc (List.mem_cons_self _ _)]
    rw [hstep]
    exact ih _ (fun x hx => h x (List.mem_cons_of_mem _ hx))

theorem walkF_fuel_irrel : ∀ (n m : Nat) (t : Trie), heightLt t n → n ≤ m →
    walkF n t = walkF m t := by
  intro n
  induction n with
  | zero => intro m t h _; cases h
  | succ n ih =>
    intro m t ht hm
    cases m with
    | zero => exact absurd hm (by omega)
    | succ m =>
      have h1 : walkF (n + 1) t =
          (if 0 < (t.children.foldl (walkFoldStep (walkF n)) []).length
           then t.children.foldl (walkFoldStep (walkF n)) []
           else if 2 ≤ nodeSize t then [WSym.END] else []) := rfl
      have h2 : walkF (m + 1) t =
          (if 0 < (t.children.foldl (walkFoldStep (walkF m)) []).length
           then t.children.foldl (walkFoldStep (walkF m)) []
           else if 2 ≤ nodeSize t then [WSym.END] else []) := rfl
      have hfold : t.children.foldl (walkFoldStep (walkF n)) [] =
          t.children.foldl (walkFoldStep (walkF m)) [] :=
        foldl_walkFoldStep_congr _ _ _ _
          (fun kc hkc => ih m kc.2 (ht kc hkc) (by omega))
      rw [h1, h2, hfold]

theorem largest_common_suffix3_fuel (words : List Word) (m : Nat)
    (hm : totalLen words + 1 ≤ m) :
    largest_common_suffix3 words = walkF m (build_trie words) :=
  walkF_fuel_irrel _ m _ (heightLt_build_trie words) hm

theorem mem_allChars {c : Char} {w : Word} : ∀ {words : List Word},
    w ∈ words → c ∈ w → c ∈ allChars words := by
  intro words
  induction words with
  | nil => intro h; cases h
  | cons x rest ih =>
    intro hw hc
    rw [allChars, List.foldr_cons, List.mem_append]
    rcases List.mem_cons.1 hw with rfl | h2
    · exact Or.inl hc
    · exact Or.inr (ih h2 hc)

theorem singleKey_ne_end (c : Char) : ¬ String.mk [c] = "END" := by
  intro h
  have h2 := congrArg String.length h
  simp [String.length] at h2

theorem pyLookup_pySet_same (k : String) (v : PyVal) :
    ∀ entries, pyLookup (pySet entries k v) k = some v := by
  intro entries
  induction entries with
  | nil => simp [pySet, pyLookup]
  | cons kv rest ih =>
    obtain ⟨k', v'⟩ := kv
    by_cases h : k' = k
    · simp [pySet, pyLookup, h]
    · simp [pySet, pyLookup, h, ih]

theorem pyLookup_pySet_other (k a : String) (v : PyVal) (h : ¬ k = a) :
    ∀ entries, pyLookup (pySet entries k v) a = pyLookup entries a := by
  intro entries
  induction entries with
  | nil => simp [pySet, pyLookup, h]
  | cons kv rest ih =>
    obtain ⟨k', v'⟩ := kv
    by_cases h2 : k' = k
    · subst h2
      simp [pySet, pyLookup, h, ih]
    · simp only [pySet, if_neg h2]
      by_cases h3 : k' = a
      · simp [pyLookup, h3]
      · simp [pyLookup, h3, ih]

theorem pySet_mem {k : String} {v : PyVal} {kv : String × PyVal} :
    ∀ {entries}, kv ∈ pySet entries k v → kv ∈ entries ∨ kv = (k, v) := by
  intro entries
  induction entries with
  | nil =>
    intro h
    simp only [pySet, List.mem_singleton] at h
    exact Or.inr h
  | cons e rest ih =>
    obtain ⟨k', v'⟩ := e
    intro h
    by_cases h2 : k' = k
    · rw [pySet, if_pos h2] at h
      rcases List.mem_cons.1 h with h3 | h3
      · exact Or.inr h3
      · exact Or.inl (List.mem_cons_of_mem _ h3)
    · rw [pySet, if_neg h2] at h
      rcases List.mem_cons.1 h with h3 | h3
      · exact Or.inl (h3 ▸ List.mem_cons_self _ _)
      · rcases ih h3 with h4 | h4
        · exact Or.inl (List.mem_cons_of_mem _ h4)
        · exact Or.inr h4

theorem pySet_keys (k : String) (v : PyVal) :
    ∀ entries : List (String × PyVal), (pySet entries k v).map Prod.fst =
      if k ∈ entries.map Prod.fst then entries.map Prod.fst
      else entries.map Prod.fst ++ [k] := by
  intro entries
  induction entries with
  | nil => simp [pySet]
  | cons e rest ih =>
    obtain ⟨k', v'⟩ := e
    by_cases h : k' = k
    · simp [pySet, h]
    · have h2 : ¬ k = k' := fun hc => h hc.symm
      simp only [pySet, if_neg h, List.map_cons, List.mem_cons]
      rw [ih]
      by_cases h3 : k ∈ rest.map Prod.fst
      · simp [h3, h2]
      · simp [h3, h2]

theorem pySet_nodup {entries : List (String × PyVal)} (k : String) (v : PyVal)
    (h : (entries.map Prod.fst).Nodup) : ((pySet entries k v).map Prod.fst).Nodup := by
  rw [pySet_keys]
  by_cases hk : k ∈ entries.map Prod.fst
  · rw [if_pos hk]; exact h
  · rw [if_neg hk]
    refine List.Nodup.append h (List.nodup_singleton k) ?_
    intro a ha hb
    rw [List.mem_singleton] at hb
    subst hb
    exact hk ha

theorem pyLookup_mem {k : String} {v : PyVal} :
    ∀ {entries}, pyLookup entries k = some v → (k, v) ∈ entries := by
  intro entries
  induction entries with
  | nil => intro h; cases h
  | cons e rest ih =>
    obtain ⟨k', v'⟩ := e
    intro h
    by_cases h2 : k' = k
    · rw [pyLookup, if_pos h2] at h
      injection h with h3
      subst h2
      subst h3
      exact List.mem_cons_self _ _
    · rw [pyLookup, if_neg h2] at h
      exact List.mem_cons_of_mem _ (ih h)

theorem pyInvA_dict {A : List Char} {t : PyVal} (h : PyInvA A t) :
    ∃ entries, t = PyVal.dict entries := by
  cases h with
  | mk entries _ _ _ _ => exact ⟨entries, rfl⟩

theorem insertPy_dict_cons (entries : List (String × PyVal)) (c : Char) (rest : List Char) :
    insertPy (PyVal.dict entries) (c :: rest) =
      (match insertPy (match pyLookup entries (String.mk [c]) with
          | some v => v
          | none => PyVal.dict []) rest with
        | some child2 => some (PyVal.dict (pySet entries (String.mk [c]) child2))
        | none => none) := rfl

theorem insertPy_some : ∀ (w : List Char) (A : List Char) (t : PyVal),
    PyInvA A t → (∀ c ∈ w, c ∈ A) →
    ∃ t', insertPy t w = some t' ∧ PyInvA A t' ∧
      (∀ p, pyHasPath t p = true → pyHasPath t' p = true) ∧
      (∀ p, pyMemB t p = true → pyMemB t' p = true) := by
  intro w
  induction w with
  | nil =>
    intro A t hinv _
    obtain ⟨entries, rfl⟩ := pyInvA_dict hinv
    cases hinv with
    | mk entries hend hch hrec hnd =>
      refine ⟨PyVal.dict (pySet entries "END" (PyVal.int 0)), rfl, ?_, ?_, ?_⟩
      · refine PyInvA.mk _ ?_ ?_ ?_ (pySet_nodup _ _ hnd)
        · intro kv hkv hke
          rcases pySet_mem hkv with h | h
          · exact hend kv h hke
          · rw [h]
        · intro kv hkv hke
          rcases pySet_mem hkv with h | h
          · exact hch kv h hke
          · rw [h] at hke
            exact absurd rfl hke
        · intro kv hkv hke
          rcases pySet_mem hkv with h | h
          · exact hrec kv h hke
          · rw [h] at hke
            exact absurd rfl hke
      · intro p hp
        cases p with
        | nil => rfl
        | cons c' rest' =>
          rw [pyHasPath] at hp ⊢
          rw [pyLookup_pySet_other "END" (String.mk [c']) _
            (fun h => singleKey_ne_end c' h.symm)]
          exact hp
      · intro p hp
        cases p with
        | nil =>
          rw [pyMemB, pyLookup_pySet_same]
        | cons c' rest' =>
          rw [pyMemB] at hp ⊢
          rw [pyLookup_pySet_other "END" (String.mk [c']) _
            (fun h => singleKey_ne_end c' h.symm)]
          exact hp
  | cons c rest ih =>
    intro A t hinv hA
    obtain ⟨entries, rfl⟩ := pyInvA_dict hinv
    have hcA : c ∈ A := hA c (List.mem_cons_self _ _)
    have hrestA : ∀ x ∈ rest, x ∈ A := fun x hx => hA x (List.mem_cons_of_mem _ hx)
    have hchildinv : PyInvA A (match pyLookup entries (String.mk [c]) with
        | some v => v
        | none => PyVal.dict []) := by
      cases hinv with
      | mk entries hend hch hrec hnd =>
        cases hl : pyLookup entries (String.mk [c]) with
        | some v =>
          exact hrec (String.mk [c], v) (pyLookup_mem hl) (singleKey_ne_end c)
        | none =>
          refine PyInvA.mk [] ?_ ?_ ?_ List.nodup_nil
          · intro kv hkv; cases hkv
          · intro kv hkv; cases hkv
          · intro kv hkv; cases hkv
    obtain ⟨child2, hc2, hc2inv, hc2path, hc2mem⟩ :=
      ih A _ hchildinv hrestA
    cases hinv with
    | mk entries hend hch hrec hnd =>
      refine ⟨PyVal.dict (pySet entries (String.mk [c]) child2), ?_, ?_, ?_, ?_⟩
      · rw [insertPy_dict_cons, hc2]
      · refine PyInvA.mk _ ?_ ?_ ?_ (pySet_nodup _ _ hnd)
        · intro kv hkv hke
          rcases pySet_mem hkv with h | h
          · exact hend kv h hke
          · rw [h] at hke
            exact absurd hke.symm (by
              simp only [ne_eq]
              exact fun h2 => singleKey_ne_end c h2.symm)
        · intro kv hkv hke
          rcases pySet_mem hkv with h | h
          · exact hch kv h hke
          · rw [h]
            refine ⟨c, hcA, rfl, ?_⟩
            obtain ⟨es, he⟩ := pyInvA_dict hc2inv
            exact ⟨es, he⟩
        · intro kv hkv hke
          rcases pySet_mem hkv with h | h
          · exact hrec kv h hke
          · rw [h]
            exact hc2inv
      · intro p hp
        cases p with
        | nil => rfl
        | cons c' rest' =>
          rw [pyHasPath] at hp ⊢
          by_cases hcc : String.mk [c'] = String.mk [c]
          · rw [hcc] at hp ⊢
            rw [pyLookup_pySet_same]
            cases hl : pyLookup entries (String.mk [c]) with
            | some v =>
              rw [hl] at hp
              exact hc2path rest' (by
                rw [hl] at hchildinv ⊢
                exact hp)
            | none =>
              rw [hl] at hp
              cases hp
          · rw [pyLookup_pySet_other _ _ _ (fun h => hcc h.symm)]
            exact hp
      · intro p hp
        cases p with
        | nil =>
          rw [pyMemB] at hp ⊢
          rw [pyLookup_pySet_other (String.mk [c]) "END" _ (singleKey_ne_end c)]
          exact hp
        | cons c' rest' =>
          rw [pyMemB] at hp ⊢
          by_cases hcc : String.mk [c'] = String.mk [c]
          · rw [hcc] at hp ⊢
            rw [pyLookup_pySet_same]
            cases hl : pyLookup entries (String.mk [c]) with
            | some v =>
              rw [hl] at hp
              exact hc2mem rest' (by
                rw [hl] at hchildinv ⊢
                exact hp)
            | none =>
              rw [hl] at hp
              cases hp
          · rw [pyLookup_pySet_other _ _ _ (fun h => hcc h.symm)]
            exact hp

theorem build_trie_py_aux (ws : List Word) (A : List Char) :
    ∀ t, PyInvA A t → (∀ w ∈ ws, ∀ c ∈ w.reverse, c ∈ A) →
      ∃ v, (ws.foldlM (fun t w => insertPy t w.reverse) t : Option PyVal) = some v ∧
        PyInvA A v := by
  induction ws with
  | nil =>
    intro t hinv _
    exact ⟨t, rfl, hinv⟩
  | cons w ws ih =>
    intro t hinv hws
    obtain ⟨t', ht', ht'inv, _, _⟩ :=
      insertPy_some w.reverse A t hinv (hws w (List.mem_cons_self _ _))
    obtain ⟨v, hv, hvinv⟩ :=
      ih t' ht'inv (fun x hx => hws x (List.mem_cons_of_mem _ hx))
    refine ⟨v, ?_, hvinv⟩
    rw [List.foldlM_cons, ht']
    exact hv

theorem build_trie_py_some (words : List Word) :
    ∃ v, build_trie_py words = some v ∧ PyInvA (allChars words) v := by
  rw [build_trie_py]
  refine build_trie_py_aux words (allChars words) _ ?_ ?_
  · refine PyInvA.mk [] ?_ ?_ ?_ List.nodup_nil
    · intro kv hkv; cases hkv
    · intro kv hkv; cases hkv
    · intro kv hkv; cases hkv
  · intro w hw c hc
    exact mem_allChars hw (List.mem_reverse.1 hc)

theorem lcsFold_all_eq (ps : List (Word × Word)) :
    ∀ best, (∀ p ∈ ps, p.1 = p.2) → lcsFold ps best = best := by
  induction ps with
  | nil => intro best _; rfl
  | cons p rest ih =>
    intro best h
    obtain ⟨u, v⟩ := p
    rw [lcsFold, if_pos (h (u, v) (List.mem_cons_self _ _))]
    exact ih best (fun q hq => h q (List.mem_cons_of_mem _ hq))

theorem all_eq_of_one_word {words : List Word}
    (h : words = [] ∨ ∀ u ∈ words, ∀ v ∈ words, u = v) :
    ∀ p ∈ allPairs words, p.1 = p.2 := by
  intro p hp
  obtain ⟨h1, h2⟩ := mem_of_mem_allPairs hp
  rcases h with rfl | h
  · cases h1
  · exact (h p.1 h1 p.2 h2).symm ▸ h p.1 h1 p.2 h2

theorem bdF_build_nil {words : List Word}
    (h : words = [] ∨ ∀ u ∈ words, ∀ v ∈ words, u = v) :
    bdF (totalLen words + 1) (build_trie words) = [] := by
  rw [List.eq_nil_iff_forall_not_mem]
  intro d hd
  obtain ⟨p, q, hp, hq, hpq, _⟩ :=
    bdF_sound (totalLen words + 1) (build_trie words) d (good_build_trie words) hd
  obtain ⟨u, hu, hue⟩ := (memB_build_trie words p).1 hp
  obtain ⟨v, hv, hve⟩ := (memB_build_trie words q).1 hq
  rcases h with rfl | h
  · cases hu
  · exact hpq (by rw [hue, hve, h u hu v hv])

theorem lcs2Fold_progress (m : List (Char × List Word)) :
    ∀ best, lcs2Fold m best = best ∨ best.1.length < (lcs2Fold m best).1.length := by
  induction m with
  | nil => intro best; exact Or.inl rfl
  | cons e rest ih =>
    intro best
    obtain ⟨c, values⟩ := e
    rw [lcs2Fold]
    by_cases hlt : best.1.length < (largest_common_suffix values).1.length
    · rw [if_pos hlt]
      rcases ih (largest_common_suffix values) with h | h
      · rw [h]
        exact Or.inr hlt
      · exact Or.inr (by omega)
    · rw [if_neg hlt]
      exact ih best

/-- The claim: for every finite non-empty word list the three strategies
agree on the length of the best common suffix.  On a list containing the
empty word the bucketed strategy raises `IndexError` instead of returning
a result, so the claim fails as stated; this exhibits it on `['', 'a']`
(a non-empty list), where the brute-force and trie searches both report
length 0 while `largest_common_suffix2` has no result at all. -/
theorem claim_C1_counterexample :
    largest_common_suffix2 [[], ['a']] = none ∧
    (largest_common_suffix [[], ['a']]).1.length = 0 ∧
    (charsOf (largest_common_suffix3 [[], ['a']])).length = 0 := by
  constructor
  · rfl
  · constructor
    · rfl
    · rfl

/-- C1 (amended): for every finite non-empty word list whose words are all
non-empty, the three search strategies agree on the length of the best
common suffix: the bucketed search returns a result whose suffix length
equals the brute-force suffix length, and both equal the number of
character entries of the trie search's result. -/
theorem claim_C1 (words : List Word) (hne : words ≠ [])
    (hw : ∀ w ∈ words, w ≠ []) :
    ∃ r, largest_common_suffix2 words = some r ∧
      (largest_common_suffix words).1.length = r.1.length ∧
      (largest_common_suffix words).1.length =
        (charsOf (largest_common_suffix3 words)).length := by
  obtain ⟨r, hr, hrl⟩ := largest_common_suffix2_some words hw
  refine ⟨r, hr, ?_, ?_⟩
  · rw [largest_common_suffix_length, hrl]
  · rw [largest_common_suffix_length, largest_common_suffix3_length]

theorem claim_C1_witness :
    ([['c','h','a','t'], ['r','a','t'], ['c','h','i','e','n']] ≠ ([] : List Word)) ∧
    (∀ w ∈ [['c','h','a','t'], ['r','a','t'], ['c','h','i','e','n']], w ≠ ([] : Word)) ∧
    ∃ r, largest_common_suffix2 [['c','h','a','t'], ['r','a','t'], ['c','h','i','e','n']] = some r ∧
      (largest_common_suffix [['c','h','a','t'], ['r','a','t'], ['c','h','i','e','n']]).1.length = r.1.length ∧
      (largest_common_suffix [['c','h','a','t'], ['r','a','t'], ['c','h','i','e','n']]).1.length =
        (charsOf (largest_common_suffix3 [['c','h','a','t'], ['r','a','t'], ['c','h','i','e','n']])).length :=
  ⟨by decide, by decide, claim_C1 _ (by decide) (by decide)⟩

/-- The claim: every search returns normally even on lists containing the
empty string, and in particular the bucketed search succeeds on such
lists.  In fact `last_char_map` evaluates `word[-1]`, which raises
`IndexError` on the empty string: on `['']` the bucketed search has no
result. -/
theorem claim_C2_counterexample : largest_common_suffix2 [[]] = none := rfl

/-- C2 (amended): the brute-force and trie searches are total and empty
strings contribute only an empty suffix, but the bucketed search returns
normally exactly when every word of the list is non-empty (`word[-1]`
raises `IndexError` on an empty word). -/
theorem claim_C2 (words : List Word) :
    ((largest_common_suffix2 words).isSome = true ↔ ∀ w ∈ words, w ≠ []) ∧
    (∀ b : Word, common_suffix [] b = [] ∧ common_suffix b [] = []) := by
  constructor
  · constructor
    · intro h w hw hwe
      subst hwe
      have hnone : last_char_map words = none := lcmBuild_none words [] ⟨[], hw, rfl⟩
      rw [largest_common_suffix2, hnone] at h
      exact absurd h (by simp)
    · intro hw
      obtain ⟨r, hr, _⟩ := largest_common_suffix2_some words hw
      rw [hr]
      rfl
  · intro b
    exact ⟨common_suffix_nil_left b, common_suffix_nil_right b⟩

/-- The claim: on an empty list or a list with a single distinct word
value, all searches report "no pair".  The brute-force and trie searches
do, but the bucketed search raises `IndexError` when the repeated word is
the empty string: on `['', '']` it has no result instead of `('', None)`. -/
theorem claim_C3_counterexample :
    (∀ u ∈ [([] : Word), []], ∀ v ∈ [([] : Word), []], u = v) ∧
    largest_common_suffix2 [[], []] = none := by
  constructor
  · decide
  · rfl

/-- C3 (amended): on an empty word list or a list whose elements are all
equal, the brute-force search returns `('', None)` and the trie search
returns `[]`; the bucketed search also returns `('', None)` provided the
words are non-empty (on empty words `last_char_map` raises `IndexError`). -/
theorem claim_C3 (words : List Word)
    (h : words = [] ∨ ∀ u ∈ words, ∀ v ∈ words, u = v) :
    largest_common_suffix words = ([], none) ∧
    largest_common_suffix3 words = [] ∧
    ((∀ w ∈ words, w ≠ []) → largest_common_suffix2 words = some ([], none)) := by
  refine ⟨?_, ?_, ?_⟩
  · rw [largest_common_suffix]
    exact lcsFold_all_eq _ _ (all_eq_of_one_word h)
  · have h0 : largest_common_suffix3 words =
        walkF (totalLen words + 1) (build_trie words) := rfl
    rw [h0, walkF_eq_nil_iff]
    exact bdF_build_nil h
  · intro hw
    obtain ⟨r, hr, hrl⟩ := largest_common_suffix2_some words hw
    have hmax : maxPairLen words = 0 := by
      rw [maxPairLen]
      refine Nat.le_antisymm (natMax_le ?_) (Nat.zero_le _)
      intro x hx
      obtain ⟨p, hp, hpx⟩ := List.mem_map.1 hx
      rw [← hpx, pairSuffixLen, if_pos (all_eq_of_one_word h p hp)]
    have hr0 : r.1.length = 0 := by rw [hrl, hmax]
    have hreq : r = ([], none) := by
      have h1 : largest_common_suffix2 words =
          (last_char_map words).map (fun m => lcs2Fold m ([], none)) := rfl
      rw [h1] at hr
      cases hm : last_char_map words with
      | none => rw [hm] at hr; cases hr
      | some m =>
        rw [hm] at hr
        injection hr with hr2
        have hr3 : lcs2Fold m ([], none) = r := hr2
        rcases lcs2Fold_progress m ([], none) with hp | hp
        · rw [← hr3, hp]
        · rw [← hr3] at hr0
          simp only [List.length_nil] at hp
          omega
    rw [hr, hreq]

theorem claim_C3_witness :
    largest_common_suffix [['a','b'], ['a','b']] = ([], none) ∧
    largest_common_suffix3 [['a','b'], ['a','b']] = [] ∧
    largest_common_suffix2 [['a','b'], ['a','b']] = some ([], none) :=
  ⟨(claim_C3 _ (Or.inr (by decide))).1,
   (claim_C3 _ (Or.inr (by decide))).2.1,
   (claim_C3 _ (Or.inr (by decide))).2.2 (by decide)⟩

/-- C4: the brute-force search examines every pair `i < j` (skipping equal
words), keeps only strictly longer suffixes, and its returned suffix has
the maximal common-suffix length over all pairs of distinct words;
moreover the returned pair, when present, is a pair of distinct words of
the list realising the returned suffix, and an absent pair means the
returned suffix is empty. -/
theorem claim_C4 (words : List Word) :
    (largest_common_suffix words).1.length = maxPairLen words ∧
    (∀ p ∈ allPairs words, p.1 ≠ p.2 →
      (common_suffix p.1 p.2).length ≤ (largest_common_suffix words).1.length) ∧
    ((largest_common_suffix words).2 = none → (largest_common_suffix words).1 = []) ∧
    (∀ u v, (largest_common_suffix words).2 = some (u, v) →
      (u, v) ∈ allPairs words ∧ u ≠ v ∧
        common_suffix u v = (largest_common_suffix words).1) := by
  refine ⟨largest_common_suffix_length words, ?_, ?_, ?_⟩
  · intro p hp hne
    rw [largest_common_suffix_length, maxPairLen]
    have : (common_suffix p.1 p.2).length = pairSuffixLen p := by
      rw [pairSuffixLen, if_neg hne]
    rw [this]
    exact le_natMax_of_mem (List.mem_map.2 ⟨p, hp, rfl⟩)
  · intro hnone
    rcases largest_common_suffix_inv words with h | ⟨u, v, he, _, _⟩
    · rw [h]
    · rw [he] at hnone
      cases hnone
  · intro u v hsome
    rcases largest_common_suffix_inv words with h | ⟨u', v', he, hm, hne⟩
    · rw [h] at hsome
      cases hsome
    · rw [he] at hsome ⊢
      injection hsome with h2
      injection h2 with h3 h4
      subst h3
      subst h4
      exact ⟨hm, hne, rfl⟩

/-- C5: after `build_trie` has inserted the word list, for any two words
`u, v` of the list the path spelled by the reverse of their common suffix
exists from the root, and that reversed suffix is exactly the longest
common prefix of the root paths of `reverse(u)` and `reverse(v)`: a path
is a common prefix of both root paths exactly when it is a prefix of it. -/
theorem claim_C5 (words : List Word) (u v : Word)
    (hu : u ∈ words) (hv : v ∈ words) :
    hasPath (build_trie words) (common_suffix u v).reverse = true ∧
    (common_suffix u v).reverse = lcp u.reverse v.reverse ∧
    (∀ p : List Char, (prefB p u.reverse = true ∧ prefB p v.reverse = true) ↔
      prefB p (common_suffix u v).reverse = true) := by
  have heq : (common_suffix u v).reverse = lcp u.reverse v.reverse := by
    rw [common_suffix_eq, List.reverse_reverse]
  refine ⟨?_, heq, ?_⟩
  · have hm : memB (build_trie words) u.reverse = true :=
      (memB_build_trie _ _).2 ⟨u, hu, rfl⟩
    obtain ⟨r, hr⟩ := (prefB_iff _ _).1 (prefB_lcp_left u.reverse v.reverse)
    rw [heq]
    refine hasPath_of_memB _ r _ ?_
    rw [hr]
    exact hm
  · intro p
    rw [heq]
    exact (prefB_lcp_iff p u.reverse v.reverse).symm

theorem claim_C5_witness :
    (['c','h','a','t'] ∈ [['c','h','a','t'], ['r','a','t'], ['c','h','i','e','n']]) ∧
    (['r','a','t'] ∈ [['c','h','a','t'], ['r','a','t'], ['c','h','i','e','n']]) ∧
    (hasPath (build_trie [['c','h','a','t'], ['r','a','t'], ['c','h','i','e','n']])
      (common_suffix ['c','h','a','t'] ['r','a','t']).reverse = true ∧
    (common_suffix ['c','h','a','t'] ['r','a','t']).reverse =
      lcp ['c','h','a','t'].reverse ['r','a','t'].reverse ∧
    (∀ p : List Char, (prefB p ['c','h','a','t'].reverse = true ∧
        prefB p ['r','a','t'].reverse = true) ↔
      prefB p (common_suffix ['c','h','a','t'] ['r','a','t']).reverse = true)) :=
  ⟨by decide, by decide, claim_C5 _ _ _ (by decide) (by decide)⟩

/-- C6: appending the same character to two words that both end in their
common suffix yields a common suffix longer by at least one (here exactly
one more character matches, the appended one). -/
theorem claim_C6 (a b : Word) (c : Char)
    (ha : sufB (common_suffix a b) a = true) (hb : sufB (common_suffix a b) b = true) :
    (common_suffix a b).length + 1 ≤ (common_suffix (a ++ [c]) (b ++ [c])).length := by
  have h1 : (a ++ [c]).reverse = c :: a.reverse := by simp
  have h2 : (b ++ [c]).reverse = c :: b.reverse := by simp
  have h3 : common_suffix (a ++ [c]) (b ++ [c]) =
      (lcp ((a ++ [c]).reverse) ((b ++ [c]).reverse)).reverse := common_suffix_eq _ _
  have h4 : common_suffix a b = (lcp a.reverse b.reverse).reverse := common_suffix_eq a b
  rw [h4, h3, h1, h2, lcp_cons_eq, List.length_reverse, List.length_reverse,
    List.length_cons]

theorem claim_C6_witness :
    sufB (common_suffix ['x','a'] ['y','a']) ['x','a'] = true ∧
    sufB (common_suffix ['x','a'] ['y','a']) ['y','a'] = true ∧
    (common_suffix ['x','a'] ['y','a']).length + 1 ≤
      (common_suffix (['x','a'] ++ ['t']) (['y','a'] ++ ['t'])).length :=
  ⟨by decide, by decide, claim_C6 ['x','a'] ['y','a'] 't' (by decide) (by decide)⟩

/-- C7: `common_suffix` is symmetric in its two arguments. -/
theorem claim_C7 (a b : Word) : common_suffix a b = common_suffix b a :=
  common_suffix_comm_aux a b

/-- C8: on `['chat', 'rat', 'chien']` the brute-force search returns
`('at', ('chat', 'rat'))`, and the trie search's result denotes the same
suffix `'at'` of length 2 (its character entries read `'at'` reversed). -/
theorem claim_C8 :
    largest_common_suffix [['c','h','a','t'], ['r','a','t'], ['c','h','i','e','n']] =
      (['a','t'], some (['c','h','a','t'], ['r','a','t'])) ∧
    largest_common_suffix3 [['c','h','a','t'], ['r','a','t'], ['c','h','i','e','n']] =
      [WSym.ch 't', WSym.ch 'a', WSym.END] ∧
    (charsOf (largest_common_suffix3
      [['c','h','a','t'], ['r','a','t'], ['c','h','i','e','n']])).reverse = ['a','t'] ∧
    (charsOf (largest_common_suffix3
      [['c','h','a','t'], ['r','a','t'], ['c','h','i','e','n']])).length = 2 := by
  refine ⟨?_, ?_, ?_, ?_⟩ <;> decide

/-- C9: the trie search's result is either empty or a list of single
characters followed by the `'END'` marker, the characters being exactly
the character entries of the result (the reverse of the found suffix), so
a non-empty result is one longer than the found suffix. -/
theorem claim_C9 (words : List Word) :
    largest_common_suffix3 words = [] ∨
      ∃ s : List Char, largest_common_suffix3 words = s.map WSym.ch ++ [WSym.END] ∧
        s = charsOf (largest_common_suffix3 words) ∧
        (largest_common_suffix3 words).length = s.length + 1 := by
  have h0 : largest_common_suffix3 words =
      walkF (totalLen words + 1) (build_trie words) := rfl
  rw [h0]
  rcases (walkF_spec (totalLen words + 1) (build_trie words)).1 with h | ⟨s, hs⟩
  · exact Or.inl h
  · refine Or.inr ⟨s, hs, ?_, ?_⟩
    · rw [hs, charsOf_of_shape]
    · rw [hs]
      simp

/-- C10: every trie built by `build_trie` satisfies the structural
invariant (stated on the untyped dict model `build_trie_py`, which the
Python code manipulates): every key is the string `'END'` mapping to the
int `0` or a single character of an inserted word mapping to a nested
dict satisfying the same invariant, keys are distinct, so a value is a
non-dict exactly when its key is `'END'`; and each insertion preserves
the invariant, never fails, and never removes an existing path or
end-of-word mark. -/
theorem claim_C10 :
    (∀ words : List Word, ∃ v, build_trie_py words = some v ∧
      PyInvA (allChars words) v) ∧
    (∀ (A : List Char) (t : PyVal) (w : List Char), PyInvA A t →
      (∀ c ∈ w, c ∈ A) →
      ∃ t', insertPy t w = some t' ∧ PyInvA A t' ∧
        (∀ p, pyHasPath t p = true → pyHasPath t' p = true) ∧
        (∀ p, pyMemB t p = true → pyMemB t' p = true)) :=
  ⟨build_trie_py_some, fun A t w hinv hA => insertPy_some w A t hinv hA⟩

theorem claim_C10_witness :
    ∃ t', insertPy (PyVal.dict []) ['a', 'b'] = some t' ∧ PyInvA ['a', 'b'] t' ∧
      (∀ p, pyHasPath (PyVal.dict []) p = true → pyHasPath t' p = true) ∧
      (∀ p, pyMemB (PyVal.dict []) p = true → pyMemB t' p = true) :=
  claim_C10.2 ['a', 'b'] (PyVal.dict [])
    ['a', 'b']
    (PyInvA.mk [] (fun kv h => absurd h (List.not_mem_nil kv))
      (fun kv h => absurd h (List.not_mem_nil kv))
      (fun kv h => absurd h (List.not_mem_nil kv)) List.nodup_nil)
    (fun c hc => hc)
